import Mathlib

/-!
Verification of the `namedtensor` core (`src/namedtensor/core.py`): a shallow
embedding of the dimension-schema algebra of `NamedTensorBase` together with
proofs about its structural operations.

The raw dense-array engine (torch in the original) is out of scope of the
repository and is modelled by `Tensor`: a shape list together with a flat
row-major data list; `permute` materialises the axis permutation and `view`
performs the size-checked reshape with the `-1` inference sentinel, exactly
the interface contract the spec requires of the engine.
-/

namespace NamedTensor

/-- Errors surfaced by the core (assertion/KeyError/engine failures in the
Python source; the spec's error taxonomy). -/
inductive TErr where
  | nameNotFound
  | schemaError
  | shapeMismatch
  | invalidPerm
  | indexError
  deriving DecidableEq, Repr

/-- Equality on `Except` results is decidable (used to evaluate the closed
example theorems). -/
instance instDecidableEqExcept {e a : Type} [DecidableEq e] [DecidableEq a] :
    DecidableEq (Except e a) := fun x y =>
  match x, y with
  | .ok u, .ok v =>
    if h : u = v then isTrue (by rw [h]) else isFalse (by intro hh; cases hh; exact h rfl)
  | .error u, .error v =>
    if h : u = v then isTrue (by rw [h]) else isFalse (by intro hh; cases hh; exact h rfl)
  | .ok _, .error _ => isFalse (fun hh => Except.noConfusion hh)
  | .error _, .ok _ => isFalse (fun hh => Except.noConfusion hh)

/-- The raw array of the external engine: a shape together with flat
row-major data. -/
structure Tensor where
  shape : List Nat
  data : List Int
  deriving DecidableEq, Repr

/-- Source `prod(factors)` from core.py: `functools.reduce(operator.mul, factors, 1)`. -/
def prod (factors : List Nat) : Nat := factors.foldl (· * ·) 1

/-- Number of elements of a tensor. -/
def Tensor.numel (t : Tensor) : Nat := prod t.shape

/-- All multi-indices of a shape, in row-major (lexicographic) order. -/
def allIndices : List Nat → List (List Nat)
  | [] => [[]]
  | n :: rest => (List.range n).flatMap (fun i => (allIndices rest).map (i :: ·))

/-- Row-major flattening of a multi-index. -/
def toFlat : List Nat → List Nat → Nat
  | _ :: ss, i :: is => i * prod ss + toFlat ss is
  | _, _ => 0

/-- The element of a tensor at a multi-index (0 out of range). -/
def Tensor.att (t : Tensor) (idx : List Nat) : Int :=
  t.data.getD (toFlat t.shape idx) 0

/-- The engine's axis permutation: `tensor.permute(*indices)`.  Requires a
genuine permutation of the axes; the result holds, at each new multi-index,
the source element at the correspondingly un-permuted index. -/
def Tensor.permute (t : Tensor) (perm : List Nat) : Except TErr Tensor :=
  if perm.length = t.shape.length ∧ perm.Nodup ∧ ∀ i ∈ perm, i < t.shape.length then
    let newShape := perm.map (fun i => t.shape.getD i 0)
    .ok { shape := newShape,
          data := (allIndices newShape).map (fun ni =>
            t.att ((List.range t.shape.length).map
              (fun k => ni.getD (perm.indexOf k) 0))) }
  else .error .invalidPerm

/-- The engine's `contiguous()`: our tensors are always materialised
row-major, so this is the identity. -/
def Tensor.contiguous (t : Tensor) : Tensor := t

/-- The engine's `view(*sizes)`: reshape with at most one `-1` (inferred)
entry; the target element count must match exactly, and an inferred slot
requires the product of the remaining entries to be nonzero and to divide
the element count. Data is unchanged. -/
def Tensor.view (t : Tensor) (sizes : List Int) : Except TErr Tensor :=
  if sizes.any (fun s => s < -1) then .error .shapeMismatch
  else if 1 < (sizes.filter (· = -1)).length then .error .shapeMismatch
  else
    let p : Nat := prod ((sizes.filter (· ≠ -1)).map Int.toNat)
    if (sizes.filter (· = -1)).length = 1 then
      if p ≠ 0 ∧ t.numel % p = 0 then
        .ok { shape := sizes.map (fun s => if s = -1 then t.numel / p else s.toNat),
              data := t.data }
      else .error .shapeMismatch
    else
      if p = t.numel then
        .ok { shape := sizes.map Int.toNat, data := t.data }
      else .error .shapeMismatch

/-- Modelled from the spec: `_Schema.get` of the missing `schema.py` module
(spec 4.1): the axis index bound to a name, `none` (`NameNotFoundError`)
when absent. -/
def schemaGet : List String → String → Option Nat
  | [], _ => none
  | n :: rest, d => if n = d then some 0 else (schemaGet rest d).map (· + 1)

/-- A named array: raw tensor, schema name list (axis order) and the
schema's 1-based mask marker (0 = no mask). -/
structure NamedTensorBase where
  tensor : Tensor
  names : List String
  masked : Nat
  deriving DecidableEq, Repr

namespace NamedTensorBase

/-- The constructor `NamedTensorBase.__init__`: `_Schema.build` rejects
duplicate names (modelled from the spec, 4.1), then the rank of the raw
tensor must equal the number of names (for rank 0, names must be empty). -/
def build (tensor : Tensor) (names : List String) (mask : Nat) :
    Except TErr NamedTensorBase :=
  if ¬ names.Nodup then .error .schemaError
  else if 0 < tensor.shape.length then
    if tensor.shape.length = names.length then .ok ⟨tensor, names, mask⟩
    else .error .shapeMismatch
  else
    if names.length = 0 then .ok ⟨tensor, names, mask⟩
    else .error .shapeMismatch

/-- Property `vshape`: the raw dim sizes. -/
def vshape (t : NamedTensorBase) : List Nat := t.tensor.shape

/-- Property `shape`: the ordered name-to-size dictionary (`_Schema.ordered_dict`
zipping names with raw sizes; modelled from the spec, 4.1). -/
def shapeDict (t : NamedTensorBase) : List (String × Nat) :=
  t.names.zip t.tensor.shape

/-- Dictionary lookup (Python `dict[k]` / `dict.get(k)`). -/
def dictGet : List (String × Nat) → String → Option Nat
  | [], _ => none
  | (k, v) :: rest, d => if k = d then some v else dictGet rest d

/-- Lookup `self.shape[d]` for a name known to be bound. -/
def shapeOf (t : NamedTensorBase) (d : String) : Nat :=
  (dictGet t.shapeDict d).getD 0

/-- The element of a named array under an assignment of an index to each
name (by schema order). -/
def element (t : NamedTensorBase) (f : String → Nat) : Int :=
  t.tensor.att (t.names.map f)

/-- Method `transpose(*dims)`: checks every listed name (schema `get`), then
permutes so unlisted names come first in original order followed by the
listed names, and rebuilds (mask cleared by `__class__(tensor, to_dims)`). -/
def transpose (t : NamedTensorBase) (dims : List String) :
    Except TErr NamedTensorBase :=
  if dims.all (fun d => (schemaGet t.names d).isSome) then
    let to_dims := t.names.filter (fun d => decide (d ∉ dims)) ++ dims
    let indices := to_dims.map (fun d => (schemaGet t.names d).getD 0)
    match t.tensor.permute indices with
    | .ok tensor => build tensor to_dims 0
    | .error e => .error e
  else .error .nameNotFound

/-- The loop of `_merge`: walking the schema names builds the transpose
target `s`, the result names `ex` and the view sizes, collapsing the
participating names (product size, result name `dim`) at the position of
the first participating axis. -/
def mergeGo (sizes : String → Nat) (names_ : List String) (dim : String)
    (pn : Nat) : List String → Bool → List String × List String × List Nat
  | [], _ => ([], [], [])
  | d :: rest, first =>
    if d ∈ names_ then
      if first then
        let (s, ex, view) := mergeGo sizes names_ dim pn rest false
        (names_ ++ s, dim :: ex, pn :: view)
      else mergeGo sizes names_ dim pn rest false
    else
      let (s, ex, view) := mergeGo sizes names_ dim pn rest first
      (d :: s, d :: ex, sizes d :: view)

/-- Method `_merge(names, dim)`: transpose the participating axes together, then a
contiguous view collapsing them into one axis of the product size. -/
def _merge (t : NamedTensorBase) (names_ : List String) (dim : String) :
    Except TErr NamedTensorBase :=
  let res := mergeGo (t.shapeOf) names_ dim (prod (names_.map t.shapeOf))
      t.names true
  match t.transpose res.1 with
  | .ok tr =>
    match tr.tensor.contiguous.view (res.2.2.map Int.ofNat) with
    | .ok tensor => build tensor res.2.1 0
    | .error e => .error e
  | .error e => .error e

/-- Method `stack(dims, name)`: checks each dim via schema `get`, then merges. -/
def stack (t : NamedTensorBase) (dims : List String) (name : String) :
    Except TErr NamedTensorBase :=
  if dims.all (fun d => (schemaGet t.names d).isSome) then _merge t dims name
  else .error .nameNotFound

/-- The loop of `_split`: walking the schema names replaces the axis `dim`
by the new names with their declared sizes (`-1` when unspecified). -/
def splitGo (sizes : String → Nat) (dim : String) (names_ : List String)
    (size_dict : List (String × Nat)) : List String → List String × List Int
  | [] => ([], [])
  | d :: rest =>
    let (ex, view) := splitGo sizes dim names_ size_dict rest
    if d ≠ dim then (d :: ex, (sizes d : Int) :: view)
    else (names_ ++ ex,
      names_.map (fun d2 =>
        match dictGet size_dict d2 with
        | some v => (v : Int)
        | none => -1) ++ view)

/-- Method `_split(dim, names, size_dict)`: view the tensor with `dim`'s slot
expanded to the new names (unspecified sizes inferred by the engine). -/
def _split (t : NamedTensorBase) (dim : String) (names_ : List String)
    (size_dict : List (String × Nat)) : Except TErr NamedTensorBase :=
  let res := splitGo (t.shapeOf) dim names_ size_dict t.names
  match t.tensor.view res.2 with
  | .ok tensor => build tensor res.1 0
  | .error e => .error e

/-- Method `split(dim, names, **dim_sizes)`. -/
def split (t : NamedTensorBase) (dim : String) (names_ : List String)
    (dim_sizes : List (String × Nat)) : Except TErr NamedTensorBase :=
  t._split dim names_ dim_sizes

/-- Method `rename(dim, name)`: `self._split(dim, (name,), {})`. -/
def rename (t : NamedTensorBase) (dim name : String) :
    Except TErr NamedTensorBase :=
  t._split dim [name] []

/-- Method `unsqueeze(dim)`: `self._split(names[0], (dim, names[0]), {dim: 1})`
(IndexError on a rank-0 schema). -/
def unsqueeze (t : NamedTensorBase) (dim : String) :
    Except TErr NamedTensorBase :=
  match t.names with
  | [] => .error .indexError
  | n0 :: _ => t._split n0 [dim, n0] [(dim, 1)]

/-- Python substring containment `needle in hay` on strings. -/
def strIn (needle hay : String) : Bool :=
  (hay.toList.tails.any (fun tl => needle.toList.isPrefixOf tl))

/-- Predicate for the characters Python's `str.isspace()` accepts: the
CPython Unicode whitespace table (tab, LF, VT, FF, CR, the separator
controls 0x1C-0x1F, space, NEL, NBSP, and the Unicode space-category
codepoints). `str.split()` with no argument splits on exactly these. -/
def pyIsSpace (c : Char) : Bool :=
  ([0x09, 0x0A, 0x0B, 0x0C, 0x0D, 0x1C, 0x1D, 0x1E, 0x1F, 0x20, 0x85,
    0xA0, 0x1680, 0x2000, 0x2001, 0x2002, 0x2003, 0x2004, 0x2005, 0x2006,
    0x2007, 0x2008, 0x2009, 0x200A, 0x2028, 0x2029, 0x202F, 0x205F,
    0x3000] : List Nat).contains c.toNat

/-- Python `str.split()`: split on runs of whitespace (any character of
`pyIsSpace`), producing no empty pieces. -/
def pySplitChars : List Char → List Char → List String
  | [], acc => if acc = [] then [] else [String.mk acc.reverse]
  | c :: rest, acc =>
    if pyIsSpace c then
      (if acc = [] then pySplitChars rest []
       else String.mk acc.reverse :: pySplitChars rest [])
    else pySplitChars rest (c :: acc)

/-- Python `str.split()` on a string. -/
def pySplit (s : String) : List String := pySplitChars s.toList []

/-- Method `_promote(dims)`: `dims` is a whitespace-separated string; transposes to
the names not occurring as substrings of `dims` followed by the tokens of
`dims` after the first. -/
def _promote (t : NamedTensorBase) (dims : String) :
    Except TErr NamedTensorBase :=
  t.transpose (t.names.filter (fun d => !(strIn d dims)) ++ (pySplit dims).drop 1)

/-- The loop of `_force_order`: walks the target names, keeping existing
axes (recorded for the transpose) and synthesising size-1 axes for the
rest. -/
def forceGo (selfNames : List String) (sizes : String → Nat) :
    List String → List String × List Nat × List String
  | [] => ([], [], [])
  | d :: rest =>
    let (ex, view, tr) := forceGo selfNames sizes rest
    if d ∉ selfNames then (d :: ex, 1 :: view, tr)
    else (d :: ex, sizes d :: view, d :: tr)

/-- Method `_force_order(names)`: transpose the known names into place and view
with size-1 axes inserted for the unknown ones. -/
def _force_order (t : NamedTensorBase) (names_ : List String) :
    Except TErr NamedTensorBase :=
  let res := forceGo t.names (t.shapeOf) names_
  match t.transpose res.2.2 with
  | .ok tr =>
    match tr.tensor.contiguous.view (res.2.1.map Int.ofNat) with
    | .ok tensor => build tensor res.1 0
    | .error e => .error e
  | .error e => .error e

/-- Method `mask_to(name)`: empty name clears the mask, otherwise the mask marker
becomes the axis index of `name` plus one (via `_new`, which re-runs the
constructor with the same tensor and names). -/
def mask_to (t : NamedTensorBase) (name : String) :
    Except TErr NamedTensorBase :=
  if name = "" then build t.tensor t.names 0
  else
    match schemaGet t.names name with
    | some i => build t.tensor t.names (i + 1)
    | none => .error .nameNotFound

end NamedTensorBase

open NamedTensorBase

/-- The loop of `assert_match`: folds the (name, size) pairs of all inputs,
recording the first non-1 size seen for each name and flagging a failure on
any later non-1 disagreement. -/
def amGo : List (String × Nat) → List (String × Nat) → Bool →
    List (String × Nat) × Bool
  | [], sizes, failure => (sizes, failure)
  | (k, v) :: rest, sizes, failure =>
    if v = 1 then amGo rest sizes failure
    else
      match dictGet sizes k with
      | some v0 => amGo rest sizes (failure || decide (v0 ≠ v))
      | none => amGo rest ((k, v) :: sizes) failure

/-- Function `assert_match(*tensors)`: every shared dim name must have all its non-1
sizes agree; on failure the assertion message carries `str(t.shape)` for
every input, modelled as the list of all shape dictionaries. -/
def assert_match (ts : List NamedTensorBase) :
    Except (List (List (String × Nat))) Unit :=
  if (amGo (ts.flatMap shapeDict) [] false).2 then
    .error (ts.map shapeDict)
  else .ok ()


/-! ### Concrete fixtures used by the closed example theorems -/

/-- dims (x=2, y=3, z=4), data 0..23 (row-major). -/
def exXYZ : NamedTensorBase :=
  ⟨⟨[2, 3, 4], (List.range 24).map Int.ofNat⟩, ["x", "y", "z"], 0⟩

/-- dims (x=2, y=3), data 0..5. -/
def exXY : NamedTensorBase :=
  ⟨⟨[2, 3], (List.range 6).map Int.ofNat⟩, ["x", "y"], 0⟩

/-- dims (batch=2, feature=3). -/
def exA : NamedTensorBase := ⟨⟨[2, 3], (List.range 6).map Int.ofNat⟩, ["batch", "feature"], 0⟩

/-- dims (feature=3, hidden=4). -/
def exB : NamedTensorBase := ⟨⟨[3, 4], (List.range 12).map Int.ofNat⟩, ["feature", "hidden"], 0⟩

/-- dims (feature=5, hidden=4). -/
def exB5 : NamedTensorBase := ⟨⟨[5, 4], (List.range 20).map Int.ofNat⟩, ["feature", "hidden"], 0⟩

/-- dims (a=2, b=3, c=4). -/
def exABC : NamedTensorBase :=
  ⟨⟨[2, 3, 4], (List.range 24).map Int.ofNat⟩, ["a", "b", "c"], 0⟩

/-- The compatibility property `assert_match` checks: among all (name, size)
pairs of all inputs, any two occurrences of one name with sizes other
than 1 agree. -/
def sizesAgree (L : List (String × Nat)) : Prop :=
  ∀ p ∈ L, ∀ q ∈ L, p.1 = q.1 → p.2 ≠ 1 → q.2 ≠ 1 → p.2 = q.2

/-! ### Basic lemmas: products, schema lookup, dictionaries, construction -/

theorem prod_eq (l : List Nat) : prod l = l.prod := List.prod_eq_foldl.symm

theorem prod_cons (a : Nat) (l : List Nat) : prod (a :: l) = a * prod l := by
  rw [prod_eq, prod_eq, List.prod_cons]

theorem prod_append (x y : List Nat) : prod (x ++ y) = prod x * prod y := by
  rw [prod_eq, prod_eq, prod_eq, List.prod_append]

theorem prod_pos {l : List Nat} (h : ∀ x ∈ l, 0 < x) : 0 < prod l := by
  rw [prod_eq]; exact List.prod_pos h

theorem schemaGet_isSome_iff (l : List String) (d : String) :
    (schemaGet l d).isSome ↔ d ∈ l := by
  induction l with
  | nil => simp [schemaGet]
  | cons n rest ih =>
    by_cases h : n = d <;> simp [schemaGet, h, ih, Option.isSome_map]
    exact fun hd => (h hd.symm).elim

theorem schemaGet_eq_some {l : List String} {d : String} {i : Nat} :
    schemaGet l d = some i → i < l.length ∧ l.getD i "" = d := by
  induction l generalizing i with
  | nil => simp [schemaGet]
  | cons n rest ih =>
    by_cases h : n = d
    · simp only [schemaGet, if_pos h]
      intro hi
      cases hi
      simpa using h
    · simp only [schemaGet, if_neg h, Option.map_eq_some']
      rintro ⟨j, hj, rfl⟩
      obtain ⟨h1, h2⟩ := ih hj
      exact ⟨by simpa using h1, by simpa using h2⟩

theorem schemaGet_of_getD {l : List String} (hl : l.Nodup) {i : Nat}
    (h : i < l.length) : schemaGet l (l.getD i "") = some i := by
  induction l generalizing i with
  | nil => simp at h
  | cons n rest ih =>
    cases i with
    | zero => simp [schemaGet]
    | succ j =>
      have hj : j < rest.length := by simpa using h
      have hmem : rest.getD j "" ∈ rest := by
        rw [List.getD_eq_getElem?_getD, List.getElem?_eq_getElem hj]
        exact List.getElem_mem _
      have hne : n ≠ rest.getD j "" := fun he => (List.nodup_cons.mp hl).1 (he ▸ hmem)
      have : (n :: rest).getD (j + 1) "" = rest.getD j "" := by
        simp [List.getD_eq_getElem?_getD]
      rw [this, schemaGet, if_neg hne, ih (List.nodup_cons.mp hl).2 hj]
      rfl

theorem schemaGet_mem {l : List String} {d : String} (h : d ∈ l) :
    ∃ i, schemaGet l d = some i ∧ i < l.length ∧ l.getD i "" = d := by
  have h1 : (schemaGet l d).isSome := (schemaGet_isSome_iff l d).mpr h
  obtain ⟨i, hi⟩ := Option.isSome_iff_exists.mp h1
  obtain ⟨h2, h3⟩ := schemaGet_eq_some hi
  exact ⟨i, hi, h2, h3⟩

theorem dictGet_zip_map (l : List String) (g : String → Nat) {n : String}
    (hn : n ∈ l) : NamedTensorBase.dictGet (l.zip (l.map g)) n = some (g n) := by
  induction l with
  | nil => simp at hn
  | cons m rest ih =>
    by_cases h : m = n
    · subst h; simp [NamedTensorBase.dictGet]
    · have hr : n ∈ rest := by
        rcases List.mem_cons.mp hn with h' | h'
        · exact absurd h'.symm h
        · exact h'
      rw [List.map_cons, List.zip_cons_cons]
      simp only [NamedTensorBase.dictGet, if_neg h]
      exact ih hr

theorem dictGet_zip_eq_none {ns : List String} {ss : List Nat} {k : String}
    (h : k ∉ ns) : NamedTensorBase.dictGet (ns.zip ss) k = none := by
  induction ns generalizing ss with
  | nil => simp [NamedTensorBase.dictGet]
  | cons n rest ih =>
    cases ss with
    | nil => simp [NamedTensorBase.dictGet]
    | cons s rest' =>
      have h1 : n ≠ k := fun he => h (he ▸ List.mem_cons_self n rest)
      have h2 : k ∉ rest := fun hm => h (List.mem_cons_of_mem _ hm)
      rw [List.zip_cons_cons]
      simp only [NamedTensorBase.dictGet, if_neg h1]
      exact ih h2

theorem map_dictGet_zip (ns : List String) (ss : List Nat) (hnd : ns.Nodup)
    (hlen : ns.length = ss.length) :
    ns.map (fun d => (NamedTensorBase.dictGet (ns.zip ss) d).getD 0) = ss := by
  induction ns generalizing ss with
  | nil => cases ss <;> simp_all
  | cons n rest ih =>
    cases ss with
    | nil => simp at hlen
    | cons s rest' =>
      have hn : n ∉ rest := (List.nodup_cons.mp hnd).1
      simp only [List.zip_cons_cons, List.map_cons, List.cons.injEq]
      constructor
      · simp [NamedTensorBase.dictGet]
      · have : rest.map (fun d =>
            (NamedTensorBase.dictGet ((n, s) :: rest.zip rest') d).getD 0) =
            rest.map (fun d => (NamedTensorBase.dictGet (rest.zip rest') d).getD 0) := by
          apply List.map_congr_left
          intro d hd
          have : n ≠ d := fun he => hn (he ▸ hd)
          simp [NamedTensorBase.dictGet, this]
        rw [this, ih rest' (List.nodup_cons.mp hnd).2 (by simpa using hlen)]

namespace NamedTensorBase

/-- Well-formedness as established by the constructor: unique names, one
name per raw axis. -/
def Wf (t : NamedTensorBase) : Prop :=
  t.names.Nodup ∧ t.tensor.shape.length = t.names.length

instance (t : NamedTensorBase) : Decidable (Wf t) := by
  unfold Wf; exact instDecidableAnd

theorem shape_eq_map_shapeOf {t : NamedTensorBase} (h : Wf t) :
    t.tensor.shape = t.names.map t.shapeOf := by
  have := map_dictGet_zip t.names t.tensor.shape h.1 h.2.symm
  unfold shapeOf shapeDict
  exact this.symm

theorem build_ok {tensor : Tensor} {ns : List String} {m : Nat}
    (h1 : ns.Nodup) (h2 : tensor.shape.length = ns.length) :
    build tensor ns m = .ok ⟨tensor, ns, m⟩ := by
  unfold build
  rw [if_neg (not_not_intro h1)]
  by_cases h3 : 0 < tensor.shape.length
  · rw [if_pos h3, if_pos h2]
  · rw [if_neg h3]
    have : ns.length = 0 := by omega
    rw [if_pos this]

theorem build_ok_elim {tensor : Tensor} {ns : List String} {m : Nat}
    {r : NamedTensorBase} (h : build tensor ns m = .ok r) :
    r = ⟨tensor, ns, m⟩ ∧ ns.Nodup ∧ tensor.shape.length = ns.length := by
  unfold build at h
  split_ifs at h with h1 h2 h3 h4 <;>
    first
    | exact Except.noConfusion h
    | (cases h; exact ⟨rfl, h1, by omega⟩)

theorem build_wf {tensor : Tensor} {ns : List String} {m : Nat}
    {r : NamedTensorBase} (h : build tensor ns m = .ok r) : Wf r := by
  obtain ⟨rfl, h1, h2⟩ := build_ok_elim h
  exact ⟨h1, h2⟩

end NamedTensorBase


/-! ### `assert_match`: the first-occurrence fold agrees with pairwise compatibility -/

theorem amGo_false_iff (L : List (String × Nat)) :
    ∀ (m : List (String × Nat)) (f : Bool),
    (amGo L m f).2 = false ↔
      f = false ∧ ∀ p ∈ L, p.2 ≠ 1 →
        ((dictGet m p.1).getD p.2 = p.2 ∧
         ∀ q ∈ L, q.1 = p.1 → q.2 ≠ 1 → q.2 = p.2) := by
  induction L with
  | nil => intro m f; simp [amGo]
  | cons pr rest ih =>
    obtain ⟨k, v⟩ := pr
    intro m f
    by_cases hv : v = 1
    · subst hv
      rw [show amGo ((k, 1) :: rest) m f = amGo rest m f from by simp [amGo]]
      rw [ih m f]
      constructor
      · rintro ⟨hf, hrest⟩
        refine ⟨hf, ?_⟩
        intro p hp hp2
        rcases List.mem_cons.mp hp with rfl | hp'
        · exact absurd rfl hp2
        · obtain ⟨c1, c2⟩ := hrest p hp' hp2
          refine ⟨c1, ?_⟩
          intro q hq hq1 hq2
          rcases List.mem_cons.mp hq with rfl | hq'
          · exact absurd rfl hq2
          · exact c2 q hq' hq1 hq2
      · rintro ⟨hf, hfull⟩
        refine ⟨hf, ?_⟩
        intro p hp hp2
        obtain ⟨c1, c2⟩ := hfull p (List.mem_cons_of_mem _ hp) hp2
        exact ⟨c1, fun q hq => c2 q (List.mem_cons_of_mem _ hq)⟩
    · cases hm : dictGet m k with
      | some v0 =>
        rw [show amGo ((k, v) :: rest) m f = amGo rest m (f || decide (v0 ≠ v))
          from by simp [amGo, hv, hm]]
        rw [ih m (f || decide (v0 ≠ v))]
        constructor
        · rintro ⟨hf, hrest⟩
          have hf1 : f = false := by
            rcases Bool.or_eq_false_iff.mp hf with ⟨h1, -⟩; exact h1
          have hv0 : v0 = v := by
            rcases Bool.or_eq_false_iff.mp hf with ⟨-, h2⟩
            simpa using h2
          refine ⟨hf1, ?_⟩
          intro p hp hp2
          rcases List.mem_cons.mp hp with rfl | hp'
          · refine ⟨by simp [hm, hv0], ?_⟩
            intro q hq hq1 hq2
            rcases List.mem_cons.mp hq with rfl | hq'
            · rfl
            · obtain ⟨c1, -⟩ := hrest q hq' hq2
              rw [hq1, hm] at c1
              simp only [Option.getD_some] at c1
              rw [← c1, hv0]
          · obtain ⟨c1, c2⟩ := hrest p hp' hp2
            refine ⟨c1, ?_⟩
            intro q hq hq1 hq2
            rcases List.mem_cons.mp hq with rfl | hq'
            · rw [← hq1, hm] at c1
              simp only [Option.getD_some] at c1
              rw [← hv0, c1]
            · exact c2 q hq' hq1 hq2
        · rintro ⟨hf, hfull⟩
          obtain ⟨c1p, -⟩ := hfull (k, v) (List.mem_cons_self _ _) hv
          have hv0 : v0 = v := by
            rw [hm] at c1p
            simpa using c1p
          refine ⟨by simp [hf, hv0], ?_⟩
          intro p hp hp2
          obtain ⟨c1, c2⟩ := hfull p (List.mem_cons_of_mem _ hp) hp2
          exact ⟨c1, fun q hq => c2 q (List.mem_cons_of_mem _ hq)⟩
      | none =>
        rw [show amGo ((k, v) :: rest) m f = amGo rest ((k, v) :: m) f
          from by simp [amGo, hv, hm]]
        rw [ih ((k, v) :: m) f]
        have hcons : ∀ d : String, d = k → dictGet ((k, v) :: m) d = some v := by
          intro d hd; subst hd; simp [dictGet]
        have hcons' : ∀ d : String, d ≠ k → dictGet ((k, v) :: m) d = dictGet m d := by
          intro d hd
          simp only [dictGet, if_neg (fun h : k = d => hd h.symm)]
        constructor
        · rintro ⟨hf, hrest⟩
          refine ⟨hf, ?_⟩
          intro p hp hp2
          rcases List.mem_cons.mp hp with rfl | hp'
          · refine ⟨by simp [hm], ?_⟩
            intro q hq hq1 hq2
            rcases List.mem_cons.mp hq with rfl | hq'
            · rfl
            · obtain ⟨c1, -⟩ := hrest q hq' hq2
              rw [hq1, hcons k rfl] at c1
              simp only [Option.getD_some] at c1
              exact c1.symm
          · obtain ⟨c1, c2⟩ := hrest p hp' hp2
            by_cases hpk : p.1 = k
            · rw [hcons p.1 hpk] at c1
              simp only [Option.getD_some] at c1
              refine ⟨by simp [hpk, hm], ?_⟩
              intro q hq hq1 hq2
              rcases List.mem_cons.mp hq with rfl | hq'
              · exact c1
              · obtain ⟨c1q, -⟩ := hrest q hq' hq2
                rw [hq1, hcons p.1 hpk] at c1q
                simp only [Option.getD_some] at c1q
                rw [← c1q, c1]
            · rw [hcons' p.1 hpk] at c1
              refine ⟨c1, ?_⟩
              intro q hq hq1 hq2
              rcases List.mem_cons.mp hq with rfl | hq'
              · exact absurd hq1 (fun h => hpk h.symm)
              · exact c2 q hq' hq1 hq2
        · rintro ⟨hf, hfull⟩
          refine ⟨hf, ?_⟩
          intro p hp hp2
          obtain ⟨c1, c2⟩ := hfull p (List.mem_cons_of_mem _ hp) hp2
          by_cases hpk : p.1 = k
          · obtain ⟨-, c2k⟩ := hfull (k, v) (List.mem_cons_self _ _) hv
            have hvp : p.2 = v := c2k p (List.mem_cons_of_mem _ hp) hpk hp2
            refine ⟨?_, fun q hq => c2 q (List.mem_cons_of_mem _ hq)⟩
            rw [hcons p.1 hpk]
            simp [hvp]
          · refine ⟨?_, fun q hq => c2 q (List.mem_cons_of_mem _ hq)⟩
            rw [hcons' p.1 hpk]
            exact c1

theorem amGo_start_iff (L : List (String × Nat)) :
    (amGo L [] false).2 = false ↔ sizesAgree L := by
  rw [amGo_false_iff]
  constructor
  · rintro ⟨-, h⟩ p hp q hq hpq hp2 hq2
    obtain ⟨-, c2⟩ := h p hp hp2
    exact (c2 q hq hpq.symm hq2).symm
  · intro h
    refine ⟨rfl, ?_⟩
    intro p hp hp2
    refine ⟨by simp [dictGet], ?_⟩
    intro q hq hq1 hq2
    exact (h p hp q hq hq1.symm hp2 hq2).symm

/-- C1: `assert_match` succeeds iff, for every dimension name shared across
the inputs' schema enumerations, all occurrences of that name whose size is
not 1 agree in size (size-1 occurrences are exempt); on violation it fails
with an error carrying the full shape dictionaries of all inputs. -/
theorem claim_C1 (ts : List NamedTensorBase) :
    (assert_match ts = .ok () ↔ sizesAgree (ts.flatMap shapeDict)) ∧
    (assert_match ts ≠ .ok () → assert_match ts = .error (ts.map shapeDict)) := by
  constructor
  · unfold assert_match
    by_cases hb : (amGo (ts.flatMap shapeDict) [] false).2
    · rw [if_pos hb]
      constructor
      · intro h; exact Except.noConfusion h
      · intro hag
        have := (amGo_start_iff (ts.flatMap shapeDict)).mpr hag
        rw [hb] at this
        exact Bool.noConfusion this
    · rw [if_neg hb]
      have : sizesAgree (ts.flatMap shapeDict) :=
        (amGo_start_iff (ts.flatMap shapeDict)).mp (Bool.not_eq_true _ ▸ Bool.of_not_eq_true hb)
      exact ⟨fun _ => this, fun _ => rfl⟩
  · intro hne
    unfold assert_match at hne ⊢
    by_cases hb : (amGo (ts.flatMap shapeDict) [] false).2
    · rw [if_pos hb]
    · exact absurd (if_neg hb) hne

/-- C1 witness: the spec's concrete scenario — (batch=2, feature=3) against
(feature=5, hidden=4) fails, reporting both shapes; against
(feature=3, hidden=4) it succeeds. -/
theorem claim_C1_witness :
    assert_match [exA, exB5] =
      .error [[("batch", 2), ("feature", 3)], [("feature", 5), ("hidden", 4)]] ∧
    assert_match [exA, exB] = .ok () :=
  ⟨(claim_C1 [exA, exB5]).2 (by decide), by decide⟩


/-! ### Engine lemmas: index enumeration, flattening, permutation access -/

theorem getD_lt {α : Type} {l : List α} {i : Nat} (d : α) (h : i < l.length) :
    l.getD i d = l[i] := by
  simp [List.getD_eq_getElem?_getD, List.getElem?_eq_getElem h]

theorem getD_map_lt {α β : Type} {l : List α} (f : α → β) {i : Nat}
    (h : i < l.length) (d : β) : (l.map f).getD i d = f l[i] := by
  simp [List.getD_eq_getElem?_getD, List.getElem?_eq_getElem, h, List.getElem?_map]

theorem getD_append_lt {α : Type} {l₁ l₂ : List α} {n : Nat} (d : α)
    (h : n < l₁.length) : (l₁ ++ l₂).getD n d = l₁.getD n d := by
  simp [List.getD_eq_getElem?_getD, List.getElem?_append, h]

theorem getD_append_ge {α : Type} {l₁ l₂ : List α} {n : Nat} (d : α)
    (h : l₁.length ≤ n) : (l₁ ++ l₂).getD n d = l₂.getD (n - l₁.length) d := by
  simp [List.getD_eq_getElem?_getD, List.getElem?_append_right h]

theorem length_allIndices (s : List Nat) : (allIndices s).length = prod s := by
  induction s with
  | nil => rfl
  | cons n rest ih =>
    show ((List.range n).flatMap fun i => (allIndices rest).map (i :: ·)).length
        = prod (n :: rest)
    rw [List.length_flatMap, prod_cons]
    simp only [Function.comp_def]
    have h1 : ((List.range n).map fun a => ((allIndices rest).map (a :: ·)).length)
        = (List.range n).map (fun _ => prod rest) :=
      List.map_congr_left (fun i _ => by rw [List.length_map, ih])
    rw [h1]
    simp [List.map_const, List.sum_replicate]

theorem toFlat_lt {idx s : List Nat} (h : List.Forall₂ (· < ·) idx s) :
    toFlat s idx < prod s := by
  induction h with
  | nil => simp [toFlat, prod]
  | @cons a b as bs hab htail ih =>
    show a * prod bs + toFlat bs as < prod (b :: bs)
    rw [prod_cons]
    have h1 : a * prod bs + toFlat bs as < (a + 1) * prod bs := by
      have := ih
      nlinarith
    have h2 : (a + 1) * prod bs ≤ b * prod bs :=
      Nat.mul_le_mul_right _ hab
    omega

theorem flatMap_getD {g : Nat → List (List Nat)} {P : Nat} {l : List Nat}
    (hP : ∀ a ∈ l, (g a).length = P) {k r : Nat} (hk : k < l.length)
    (hr : r < P) (d : List Nat) :
    (l.flatMap g).getD (k * P + r) d = (g (l.getD k 0)).getD r d := by
  induction l generalizing k with
  | nil => simp at hk
  | cons a rest ih =>
    have ha : (g a).length = P := hP a (List.mem_cons_self _ _)
    rw [List.flatMap_cons]
    cases k with
    | zero =>
      rw [Nat.zero_mul, Nat.zero_add]
      rw [getD_append_lt d (by rw [ha]; exact hr)]
      rfl
    | succ k' =>
      have harith : (k' + 1) * P + r = (g a).length + (k' * P + r) := by
        rw [ha]; ring
      rw [harith, getD_append_ge d (by omega)]
      have hsub : (g a).length + (k' * P + r) - (g a).length = k' * P + r := by omega
      rw [hsub]
      have hk' : k' < rest.length := by simpa using hk
      rw [ih (fun x hx => hP x (List.mem_cons_of_mem _ hx)) hk']
      rfl

theorem allIndices_getD {idx s : List Nat} (h : List.Forall₂ (· < ·) idx s) :
    (allIndices s).getD (toFlat s idx) [] = idx := by
  induction h with
  | nil => rfl
  | @cons a b as bs hab htail ih =>
    show ((List.range b).flatMap fun i => (allIndices bs).map (i :: ·)).getD
        (a * prod bs + toFlat bs as) [] = a :: as
    rw [flatMap_getD (P := prod bs)
      (fun i _ => by rw [List.length_map, length_allIndices])
      (by simpa using hab) (toFlat_lt htail) []]
    have hrange : (List.range b).getD a 0 = a := by
      simp [List.getD_eq_getElem?_getD, List.getElem?_range (by simpa using hab : a < b)]
    rw [hrange]
    have hlt : toFlat bs as < (allIndices bs).length := by
      rw [length_allIndices]; exact toFlat_lt htail
    rw [getD_map_lt _ hlt]
    have : (allIndices bs)[toFlat bs as] = as := by
      rw [← getD_lt [] hlt]; exact ih
    rw [this]

theorem permute_att {t : Tensor} {perm : List Nat} {r : Tensor}
    (h : t.permute perm = .ok r) {idx : List Nat}
    (hidx : List.Forall₂ (· < ·) idx r.shape) :
    r.att idx =
      t.att ((List.range t.shape.length).map
        (fun k => idx.getD (perm.indexOf k) 0)) := by
  unfold Tensor.permute at h
  split_ifs at h with hcond
  · cases h
    simp only [Tensor.att] at *
    have hlt : toFlat (perm.map fun i => t.shape.getD i 0) idx <
        (allIndices (perm.map fun i => t.shape.getD i 0)).length := by
      rw [length_allIndices]
      exact toFlat_lt hidx
    rw [List.getD_eq_getElem?_getD, List.getElem?_map, List.getElem?_eq_getElem hlt]
    simp only [Option.map_some', Option.getD_some]
    have hidx' : (allIndices (perm.map fun i => t.shape.getD i 0))[toFlat
        (perm.map fun i => t.shape.getD i 0) idx] = idx := by
      rw [← getD_lt [] hlt]
      exact allIndices_getD hidx
    rw [hidx']


/-! ### Transpose: full characterisation -/

theorem shapeOf_eq_getD {t : NamedTensorBase} (hwf : Wf t) {d : String}
    (hd : d ∈ t.names) :
    t.shapeOf d = t.tensor.shape.getD ((schemaGet t.names d).getD 0) 0 := by
  obtain ⟨i, hi, hlt, hgd⟩ := schemaGet_mem hd
  rw [hi]
  simp only [Option.getD_some]
  rw [shape_eq_map_shapeOf hwf, getD_map_lt _ hlt]
  have : t.names[i] = d := by rw [← getD_lt "" hlt]; exact hgd
  rw [this]

theorem indexOf_map_iff {α β : Type} [DecidableEq α] [DecidableEq β]
    {l : List α} {g : α → β} {k : β} {x : α}
    (h : ∀ d ∈ l, (g d = k ↔ d = x)) : (l.map g).indexOf k = l.indexOf x := by
  induction l with
  | nil => rfl
  | cons a rest ih =>
    rw [List.map_cons, List.indexOf_cons, List.indexOf_cons]
    have hiff := h a (List.mem_cons_self _ _)
    by_cases hax : a = x
    · subst hax
      have hga : g a = k := hiff.mpr rfl
      simp [hga]
    · have hga : g a ≠ k := fun hc => hax (hiff.mp hc)
      have h1 : (g a == k) = false := by simpa using hga
      have h2 : (a == x) = false := by simpa using hax
      rw [h1, h2]
      simp only [cond_false]
      rw [ih (fun d hd => h d (List.mem_cons_of_mem _ hd))]

theorem getD_map_indexOf {α β : Type} [DecidableEq α] {l : List α}
    (f : α → β) {x : α} (hx : x ∈ l) (d : β) :
    (l.map f).getD (l.indexOf x) d = f x := by
  induction l with
  | nil => simp at hx
  | cons a rest ih =>
    by_cases hax : a = x
    · subst hax
      simp [List.indexOf_cons]
    · have h2 : (a == x) = false := by simpa using hax
      rw [List.map_cons, List.indexOf_cons, h2]
      simp only [cond_false]
      have hx' : x ∈ rest := by
        rcases List.mem_cons.mp hx with h | h
        · exact absurd h.symm hax
        · exact h
      simpa using ih hx'

theorem transpose_full {t : NamedTensorBase} {dims : List String} (hwf : Wf t)
    (hnd : dims.Nodup) (hsub : ∀ d ∈ dims, d ∈ t.names) :
    ∃ r, t.transpose dims = .ok r ∧
      r.names = t.names.filter (fun d => decide (d ∉ dims)) ++ dims ∧
      r.tensor.shape = r.names.map t.shapeOf ∧
      r.masked = 0 ∧ Wf r ∧ r.names.Perm t.names ∧
      (∀ f : String → Nat, (∀ n ∈ t.names, f n < t.shapeOf n) →
        r.element f = t.element f) := by
  have hto_sub : ∀ d ∈ t.names.filter (fun d => decide (d ∉ dims)) ++ dims,
      d ∈ t.names := by
    intro d hd
    rcases List.mem_append.mp hd with h | h
    · exact List.mem_of_mem_filter h
    · exact hsub d h
  have hto_mem : ∀ d, d ∈ t.names.filter (fun d => decide (d ∉ dims)) ++ dims ↔
      d ∈ t.names := by
    intro d
    constructor
    · exact hto_sub d
    · intro hdn
      by_cases hdd : d ∈ dims
      · exact List.mem_append.mpr (Or.inr hdd)
      · exact List.mem_append.mpr (Or.inl (List.mem_filter.mpr ⟨hdn, by simpa using hdd⟩))
  have hto_nd : (t.names.filter (fun d => decide (d ∉ dims)) ++ dims).Nodup := by
    apply List.Nodup.append (hwf.1.filter _) hnd
    intro a ha hb
    have hmf := List.mem_filter.mp ha
    have hnot : a ∉ dims := by simpa using hmf.2
    exact hnot hb
  have hperm : (t.names.filter (fun d => decide (d ∉ dims)) ++ dims).Perm t.names :=
    (List.perm_ext_iff_of_nodup hto_nd hwf.1).mpr hto_mem
  have hlen : (t.names.filter (fun d => decide (d ∉ dims)) ++ dims).length
      = t.names.length := hperm.length_eq
  have hall : dims.all (fun d => (schemaGet t.names d).isSome) = true := by
    rw [List.all_eq_true]
    intro d hd
    exact (schemaGet_isSome_iff t.names d).mpr (hsub d hd)
  have hg_spec : ∀ d ∈ t.names, ∃ i, schemaGet t.names d = some i ∧
      (schemaGet t.names d).getD 0 = i ∧ i < t.names.length ∧
      t.names.getD i "" = d := by
    intro d hd
    obtain ⟨i, h1, h2, h3⟩ := schemaGet_mem hd
    refine ⟨i, h1, ?_, h2, h3⟩
    simp [h1]
  have hg_inj : ∀ d1 ∈ t.names, ∀ d2 ∈ t.names,
      (schemaGet t.names d1).getD 0 = (schemaGet t.names d2).getD 0 → d1 = d2 := by
    intro d1 h1 d2 h2 he
    obtain ⟨i1, -, hgi1, -, hn1⟩ := hg_spec d1 h1
    obtain ⟨i2, -, hgi2, -, hn2⟩ := hg_spec d2 h2
    rw [hgi1, hgi2] at he
    rw [← hn1, ← hn2, he]
  have hcond : ((t.names.filter (fun d => decide (d ∉ dims)) ++ dims).map
        (fun d => (schemaGet t.names d).getD 0)).length = t.tensor.shape.length ∧
      ((t.names.filter (fun d => decide (d ∉ dims)) ++ dims).map
        (fun d => (schemaGet t.names d).getD 0)).Nodup ∧
      ∀ i ∈ (t.names.filter (fun d => decide (d ∉ dims)) ++ dims).map
        (fun d => (schemaGet t.names d).getD 0), i < t.tensor.shape.length := by
    refine ⟨by rw [List.length_map, hlen, hwf.2], ?_, ?_⟩
    · exact List.Nodup.map_on
        (fun x hx y hy hxy => hg_inj x (hto_sub x hx) y (hto_sub y hy) hxy) hto_nd
    · intro i hi
      obtain ⟨d, hd, rfl⟩ := List.mem_map.mp hi
      obtain ⟨j, -, hgj, hjl, -⟩ := hg_spec d (hto_sub d hd)
      rw [hgj, hwf.2]
      exact hjl
  have hpermute : t.tensor.permute
      ((t.names.filter (fun d => decide (d ∉ dims)) ++ dims).map
        (fun d => (schemaGet t.names d).getD 0)) = .ok
      ⟨((t.names.filter (fun d => decide (d ∉ dims)) ++ dims).map
          (fun d => (schemaGet t.names d).getD 0)).map
          (fun i => t.tensor.shape.getD i 0),
        (allIndices (((t.names.filter (fun d => decide (d ∉ dims)) ++ dims).map
          (fun d => (schemaGet t.names d).getD 0)).map
          (fun i => t.tensor.shape.getD i 0))).map (fun ni =>
          t.tensor.att ((List.range t.tensor.shape.length).map
            (fun k => ni.getD
              (((t.names.filter (fun d => decide (d ∉ dims)) ++ dims).map
                (fun d => (schemaGet t.names d).getD 0)).indexOf k) 0)))⟩ := by
    unfold Tensor.permute
    rw [if_pos hcond]
  have hshape_eq : ((t.names.filter (fun d => decide (d ∉ dims)) ++ dims).map
      (fun d => (schemaGet t.names d).getD 0)).map (fun i => t.tensor.shape.getD i 0)
      = (t.names.filter (fun d => decide (d ∉ dims)) ++ dims).map t.shapeOf := by
    rw [List.map_map]
    exact List.map_congr_left
      (fun d hd => (shapeOf_eq_getD hwf (hto_sub d hd)).symm)
  rw [hshape_eq] at hpermute
  have hstep : t.transpose dims = NamedTensorBase.build
      ⟨(t.names.filter (fun d => decide (d ∉ dims)) ++ dims).map t.shapeOf,
       (allIndices ((t.names.filter (fun d => decide (d ∉ dims)) ++ dims).map
          t.shapeOf)).map (fun ni =>
          t.tensor.att ((List.range t.tensor.shape.length).map
            (fun k => ni.getD
              (((t.names.filter (fun d => decide (d ∉ dims)) ++ dims).map
                (fun d => (schemaGet t.names d).getD 0)).indexOf k) 0)))⟩
      (t.names.filter (fun d => decide (d ∉ dims)) ++ dims) 0 := by
    unfold transpose
    rw [if_pos hall]
    simp only []
    rw [hpermute]
  rw [build_ok hto_nd (by rw [List.length_map])] at hstep
  refine ⟨_, hstep, rfl, by simp, rfl, ⟨hto_nd, by simp⟩, hperm, ?_⟩
  intro f hf
  unfold element
  simp only []
  have hidx : List.Forall₂ (· < ·)
      ((t.names.filter (fun d => decide (d ∉ dims)) ++ dims).map f)
      ((t.names.filter (fun d => decide (d ∉ dims)) ++ dims).map t.shapeOf) := by
    clear hstep hpermute
    generalize (t.names.filter (fun d => decide (d ∉ dims)) ++ dims) = l at hto_sub ⊢
    induction l with
    | nil => constructor
    | cons a rest ih =>
      exact List.Forall₂.cons (hf a (hto_sub a (List.mem_cons_self _ _)))
        (ih (fun x hx => hto_sub x (List.mem_cons_of_mem _ hx)))
  have hacc := permute_att hpermute hidx
  rw [hacc]
  congr 1
  apply List.ext_getElem
  · simp [hwf.2]
  · intro k hk1 hk2
    simp only [List.getElem_map, List.getElem_range]
    have hkn : k < t.names.length := by
      simpa [hwf.2] using hk1
    have hx : t.names[k] ∈ t.names.filter (fun d => decide (d ∉ dims)) ++ dims :=
      (hto_mem _).mpr (List.getElem_mem hkn)
    have hIdx : ((t.names.filter (fun d => decide (d ∉ dims)) ++ dims).map
        (fun d => (schemaGet t.names d).getD 0)).indexOf k
        = (t.names.filter (fun d => decide (d ∉ dims)) ++ dims).indexOf t.names[k] := by
      apply indexOf_map_iff
      intro d hd
      constructor
      · intro hgd
        obtain ⟨i, -, hgi, hil, hni⟩ := hg_spec d (hto_sub d hd)
        rw [hgi] at hgd
        subst hgd
        rw [← getD_lt "" hil]
        exact hni.symm
      · intro hdx
        subst hdx
        have := schemaGet_of_getD hwf.1 hkn
        rw [getD_lt "" hkn] at this
        simp [this]
    rw [hIdx]
    exact getD_map_indexOf f hx 0


theorem shapeOf_of_map {r : NamedTensorBase} {g : String → Nat}
    (hshape : r.tensor.shape = r.names.map g) {n : String} (hn : n ∈ r.names) :
    r.shapeOf n = g n := by
  unfold NamedTensorBase.shapeOf NamedTensorBase.shapeDict
  rw [hshape, dictGet_zip_map _ _ hn]
  rfl

theorem transpose_absent {t : NamedTensorBase} {dims : List String}
    (h : ∃ d ∈ dims, d ∉ t.names) : t.transpose dims = .error .nameNotFound := by
  obtain ⟨d, hd, hdn⟩ := h
  unfold NamedTensorBase.transpose
  rw [if_neg]
  intro hall
  rw [List.all_eq_true] at hall
  have := hall d hd
  rw [schemaGet_isSome_iff] at this
  exact hdn this

/-- C3: `transpose(*names)` succeeds on any list of distinct existing names,
reordering so that the unlisted axes come first in original relative order
followed by the listed axes in the given order, with sizes following their
names and the raw data permuted accordingly (every name-indexed element is
preserved); if any listed name is absent it fails with `NameNotFoundError`. -/
theorem claim_C3 (t : NamedTensorBase) (dims : List String) (hwf : Wf t) :
    ((∀ d ∈ dims, d ∈ t.names) → dims.Nodup →
      ∃ r, t.transpose dims = .ok r ∧
        r.names = t.names.filter (fun d => decide (d ∉ dims)) ++ dims ∧
        (∀ n ∈ t.names, r.shapeOf n = t.shapeOf n) ∧
        r.tensor.shape = r.names.map t.shapeOf ∧
        (∀ f : String → Nat, (∀ n ∈ t.names, f n < t.shapeOf n) →
          r.element f = t.element f)) ∧
    ((∃ d ∈ dims, d ∉ t.names) → t.transpose dims = .error .nameNotFound) := by
  constructor
  · intro hsub hnd
    obtain ⟨r, h1, h2, h3, h4, h5, h6, h7⟩ := transpose_full hwf hnd hsub
    refine ⟨r, h1, h2, ?_, h3, h7⟩
    intro n hn
    have hnr : n ∈ r.names := h6.mem_iff.mpr hn
    exact shapeOf_of_map h3 hnr
  · intro h
    exact transpose_absent h


/-- C3 witness: transposing (x=2,y=3,z=4) by ["y"] gives (x,z,y); a missing
name gives `NameNotFoundError`. -/
theorem claim_C3_witness :
    (∃ r, exXYZ.transpose ["y"] = .ok r ∧
        r.names = exXYZ.names.filter (fun d => decide (d ∉ ["y"])) ++ ["y"] ∧
        (∀ n ∈ exXYZ.names, r.shapeOf n = exXYZ.shapeOf n) ∧
        r.tensor.shape = r.names.map exXYZ.shapeOf ∧
        (∀ f : String → Nat, (∀ n ∈ exXYZ.names, f n < exXYZ.shapeOf n) →
          r.element f = exXYZ.element f)) ∧
    exXYZ.transpose ["w"] = .error .nameNotFound :=
  ⟨(claim_C3 exXYZ ["y"] (by decide)).1 (by decide) (by decide),
   (claim_C3 exXYZ ["w"] (by decide)).2 ⟨"w", by decide, by decide⟩⟩


/-! ### Mask marker: structural operations rebuild with mask 0 -/

theorem transpose_masked {t : NamedTensorBase} {dims : List String}
    {r : NamedTensorBase} (h : t.transpose dims = .ok r) : r.masked = 0 := by
  unfold NamedTensorBase.transpose at h
  split at h
  · simp only [] at h
    split at h
    · rw [(build_ok_elim h).1]
    · exact Except.noConfusion h
  · exact Except.noConfusion h

theorem merge_masked {t : NamedTensorBase} {names_ : List String} {dim : String}
    {r : NamedTensorBase} (h : t._merge names_ dim = .ok r) : r.masked = 0 := by
  unfold NamedTensorBase._merge at h
  simp only [] at h
  split at h
  · split at h
    · rw [(build_ok_elim h).1]
    · exact Except.noConfusion h
  · exact Except.noConfusion h

theorem stack_masked {t : NamedTensorBase} {dims : List String} {name : String}
    {r : NamedTensorBase} (h : t.stack dims name = .ok r) : r.masked = 0 := by
  unfold NamedTensorBase.stack at h
  split at h
  · exact merge_masked h
  · exact Except.noConfusion h

theorem split_masked {t : NamedTensorBase} {dim : String} {names_ : List String}
    {size_dict : List (String × Nat)} {r : NamedTensorBase}
    (h : t._split dim names_ size_dict = .ok r) : r.masked = 0 := by
  unfold NamedTensorBase._split at h
  simp only [] at h
  split at h
  · rw [(build_ok_elim h).1]
  · exact Except.noConfusion h

theorem force_order_masked {t : NamedTensorBase} {names_ : List String}
    {r : NamedTensorBase} (h : t._force_order names_ = .ok r) : r.masked = 0 := by
  unfold NamedTensorBase._force_order at h
  simp only [] at h
  split at h
  · split at h
    · rw [(build_ok_elim h).1]
    · exact Except.noConfusion h
  · exact Except.noConfusion h

theorem mask_to_masked {t : NamedTensorBase} {name : String} {i : Nat}
    {r : NamedTensorBase} (hname : schemaGet t.names name = some i)
    (hne : name ≠ "") (h : t.mask_to name = .ok r) : r.masked = i + 1 := by
  unfold NamedTensorBase.mask_to at h
  rw [if_neg hne, hname] at h
  rw [(build_ok_elim h).1]

/-- C9: every structural transformation — transpose, stack/merge, split
(hence rename and unsqueeze, which are `_split` instances), and
`_force_order` — returns an array whose mask marker is cleared, whatever
the receiver's mask was; only `mask_to` (on a nonempty, bound name)
produces a nonzero mask marker. -/
theorem claim_C9 :
    (∀ (t : NamedTensorBase) (dims : List String) (r : NamedTensorBase),
      t.transpose dims = .ok r → r.masked = 0) ∧
    (∀ (t : NamedTensorBase) (dims : List String) (name : String)
      (r : NamedTensorBase), t.stack dims name = .ok r → r.masked = 0) ∧
    (∀ (t : NamedTensorBase) (names_ : List String) (dim : String)
      (r : NamedTensorBase), t._merge names_ dim = .ok r → r.masked = 0) ∧
    (∀ (t : NamedTensorBase) (dim : String) (names_ : List String)
      (size_dict : List (String × Nat)) (r : NamedTensorBase),
      t.split dim names_ size_dict = .ok r → r.masked = 0) ∧
    (∀ (t : NamedTensorBase) (dim name : String) (r : NamedTensorBase),
      t.rename dim name = .ok r → r.masked = 0) ∧
    (∀ (t : NamedTensorBase) (dim : String) (r : NamedTensorBase),
      t.unsqueeze dim = .ok r → r.masked = 0) ∧
    (∀ (t : NamedTensorBase) (names_ : List String) (r : NamedTensorBase),
      t._force_order names_ = .ok r → r.masked = 0) ∧
    (∀ (t : NamedTensorBase) (name : String) (i : Nat) (r : NamedTensorBase),
      schemaGet t.names name = some i → name ≠ "" →
      t.mask_to name = .ok r → r.masked ≠ 0) := by
  refine ⟨?_, ?_, ?_, ?_, ?_, ?_, ?_, ?_⟩
  · exact fun t dims r h => transpose_masked h
  · exact fun t dims name r h => stack_masked h
  · exact fun t names_ dim r h => merge_masked h
  · exact fun t dim names_ sd r h => split_masked h
  · exact fun t dim name r h => split_masked h
  · intro t dim r h
    unfold NamedTensorBase.unsqueeze at h
    split at h
    · exact Except.noConfusion h
    · exact split_masked h
  · exact fun t names_ r h => force_order_masked h
  · intro t name i r hs hne h
    rw [mask_to_masked hs hne h]
    omega

/-- C9 witness: transposing an array whose mask marker is 2 yields marker 0;
`mask_to "y"` on (x,y,z) yields marker 2 (axis index 1 plus one), nonzero. -/
theorem claim_C9_witness :
    (⟨⟨[2], [5, 7]⟩, ["x"], 0⟩ : NamedTensorBase).masked = 0 ∧
    (⟨exXYZ.tensor, exXYZ.names, 2⟩ : NamedTensorBase).masked ≠ 0 :=
  ⟨claim_C9.1 ⟨⟨[2], [5, 7]⟩, ["x"], 2⟩ ["x"] _ (by decide),
   claim_C9.2.2.2.2.2.2.2 exXYZ "y" 1 _ (by decide) (by decide) (by decide)⟩


/-! ### View: exact reshape and single-inference reshape -/

theorem view_exact {t : Tensor} {sizes : List Int} (hpos : ∀ s ∈ sizes, 0 ≤ s) :
    (prod (sizes.map Int.toNat) = t.numel →
      t.view sizes = .ok ⟨sizes.map Int.toNat, t.data⟩) ∧
    (prod (sizes.map Int.toNat) ≠ t.numel →
      t.view sizes = .error .shapeMismatch) := by
  have hany : (sizes.any fun s => decide (s < -1)) = false := by
    rw [List.any_eq_false]
    intro s hs
    have := hpos s hs
    simp
    omega
  have hne : ∀ s ∈ sizes, ¬ s = -1 := fun s hs he => by
    have := hpos s hs; omega
  have hfilt : (sizes.filter fun s => decide (s = -1)) = [] := by
    rw [List.filter_eq_nil_iff]
    intro s hs
    simpa using hne s hs
  have hfilt2 : (sizes.filter fun s => decide (¬ s = -1)) = sizes := by
    rw [List.filter_eq_self]
    intro s hs
    simpa using hne s hs
  have hred : t.view sizes =
      if prod (sizes.map Int.toNat) = t.numel then
        .ok ⟨sizes.map Int.toNat, t.data⟩
      else .error .shapeMismatch := by
    unfold Tensor.view
    rw [hany, hfilt, hfilt2]
    simp only [Bool.false_eq_true, if_false, List.length_nil]
    rw [if_neg (by omega : ¬ (1 : Nat) < 0), if_neg (by omega : ¬ (0 : Nat) = 1)]
  constructor
  · intro h
    rw [hred, if_pos h]
  · intro h
    rw [hred, if_neg h]

theorem view_infer {t : Tensor} {a b : List Int} (hposa : ∀ s ∈ a, 0 ≤ s)
    (hposb : ∀ s ∈ b, 0 ≤ s) :
    (prod ((a ++ b).map Int.toNat) ≠ 0 →
      t.numel % prod ((a ++ b).map Int.toNat) = 0 →
      t.view (a ++ -1 :: b) = .ok
        ⟨a.map Int.toNat ++ (t.numel / prod ((a ++ b).map Int.toNat)) :: b.map Int.toNat,
         t.data⟩) ∧
    (¬(prod ((a ++ b).map Int.toNat) ≠ 0 ∧
        t.numel % prod ((a ++ b).map Int.toNat) = 0) →
      t.view (a ++ -1 :: b) = .error .shapeMismatch) := by
  have hnea : ∀ s ∈ a, ¬ s = -1 := fun s hs he => by
    have := hposa s hs; omega
  have hneb : ∀ s ∈ b, ¬ s = -1 := fun s hs he => by
    have := hposb s hs; omega
  have hany : ((a ++ -1 :: b).any fun s => decide (s < -1)) = false := by
    rw [List.any_eq_false]
    intro s hs
    rcases List.mem_append.mp hs with h | h
    · have := hposa s h
      simp
      omega
    · rcases List.mem_cons.mp h with rfl | h
      · simp
      · have := hposb s h
        simp
        omega
  have hfa : (a.filter fun s => decide (s = -1)) = [] := by
    rw [List.filter_eq_nil_iff]; intro s hs; simpa using hnea s hs
  have hfb : (b.filter fun s => decide (s = -1)) = [] := by
    rw [List.filter_eq_nil_iff]; intro s hs; simpa using hneb s hs
  have hfa2 : (a.filter fun s => decide (¬ s = -1)) = a := by
    rw [List.filter_eq_self]; intro s hs; simpa using hnea s hs
  have hfb2 : (b.filter fun s => decide (¬ s = -1)) = b := by
    rw [List.filter_eq_self]; intro s hs; simpa using hneb s hs
  have hfilt : ((a ++ -1 :: b).filter fun s => decide (s = -1)) = [-1] := by
    rw [List.filter_append, hfa, List.filter_cons, hfb]
    norm_num
  have hfilt2 : ((a ++ -1 :: b).filter fun s => decide (¬ s = -1)) = a ++ b := by
    rw [List.filter_append, hfa2, List.filter_cons, hfb2]
    norm_num
  have hmapres : ((a ++ -1 :: b).map fun s =>
      if s = -1 then t.numel / prod ((a ++ b).map Int.toNat) else s.toNat) =
      a.map Int.toNat ++ (t.numel / prod ((a ++ b).map Int.toNat)) :: b.map Int.toNat := by
    have h1 : (a.map fun s =>
        if s = -1 then t.numel / prod ((a ++ b).map Int.toNat) else s.toNat)
        = a.map Int.toNat :=
      List.map_congr_left (fun s hs => by rw [if_neg (hnea s hs)])
    have h2 : (b.map fun s =>
        if s = -1 then t.numel / prod ((a ++ b).map Int.toNat) else s.toNat)
        = b.map Int.toNat :=
      List.map_congr_left (fun s hs => by rw [if_neg (hneb s hs)])
    rw [List.map_append, List.map_cons, h1, h2]
    norm_num
  have hred : t.view (a ++ -1 :: b) =
      if prod ((a ++ b).map Int.toNat) ≠ 0 ∧
          t.numel % prod ((a ++ b).map Int.toNat) = 0 then
        .ok ⟨a.map Int.toNat ++
          (t.numel / prod ((a ++ b).map Int.toNat)) :: b.map Int.toNat, t.data⟩
      else .error .shapeMismatch := by
    unfold Tensor.view
    rw [hany, hfilt, hfilt2]
    simp only [Bool.false_eq_true, if_false, List.length_singleton]
    rw [if_neg (by omega : ¬ (1 : Nat) < 1)]
    simp only [if_true]
    rw [hmapres]
  constructor
  · intro h1 h2
    rw [hred, if_pos ⟨h1, h2⟩]
  · intro h
    rw [hred, if_neg h]

/-! ### Split: loop closed forms and the silent no-op on an absent name -/

theorem splitGo_absent {sizes : String → Nat} {dim : String} {names_ : List String}
    {size_dict : List (String × Nat)} {l : List String} (h : dim ∉ l) :
    splitGo sizes dim names_ size_dict l = (l, l.map (fun d => (sizes d : Int))) := by
  induction l with
  | nil => rfl
  | cons a rest ih =>
    have ha : a ≠ dim := fun he => h (he ▸ List.mem_cons_self a rest)
    have hr : dim ∉ rest := fun hm => h (List.mem_cons_of_mem _ hm)
    simp [splitGo, ih hr, ha]

theorem splitGo_present {sizes : String → Nat} {dim : String} {names_ : List String}
    {size_dict : List (String × Nat)} {a b : List String}
    (ha : dim ∉ a) (hb : dim ∉ b) :
    splitGo sizes dim names_ size_dict (a ++ dim :: b) =
      (a ++ names_ ++ b,
       a.map (fun d => (sizes d : Int)) ++
         (names_.map (fun d2 => match dictGet size_dict d2 with
           | some v => (v : Int)
           | none => -1) ++ b.map (fun d => (sizes d : Int)))) := by
  induction a with
  | nil =>
    simp only [List.nil_append]
    simp [splitGo, splitGo_absent hb]
  | cons x a' ih =>
    have hx : x ≠ dim := fun he => ha (he ▸ List.mem_cons_self x a')
    have ha' : dim ∉ a' := fun hm => ha (List.mem_cons_of_mem _ hm)
    simp [splitGo, ih ha', hx]

theorem split_noop {t : NamedTensorBase} {dim : String} {names_ : List String}
    {size_dict : List (String × Nat)} (hwf : Wf t) (h : dim ∉ t.names) :
    t._split dim names_ size_dict = .ok ⟨t.tensor, t.names, 0⟩ := by
  unfold NamedTensorBase._split
  simp only []
  rw [splitGo_absent h]
  have hpos : ∀ s ∈ t.names.map (fun d => ((t.shapeOf d : Nat) : Int)), 0 ≤ s := by
    intro s hs
    obtain ⟨d, -, rfl⟩ := List.mem_map.mp hs
    exact Int.ofNat_nonneg _
  have hchain : (t.names.map fun d => ((t.shapeOf d : Nat) : Int)).map Int.toNat
      = t.names.map t.shapeOf := by
    rw [List.map_map]
    exact List.map_congr_left (fun d _ => by simp)
  have hprod : prod ((t.names.map fun d => ((t.shapeOf d : Nat) : Int)).map Int.toNat)
      = t.tensor.numel := by
    rw [hchain]
    unfold Tensor.numel
    rw [shape_eq_map_shapeOf hwf]
  have hview := (view_exact (t := t.tensor) hpos).1 hprod
  rw [hview]
  have heq : (⟨(t.names.map fun d => ((t.shapeOf d : Nat) : Int)).map Int.toNat,
      t.tensor.data⟩ : Tensor) = t.tensor := by
    rw [hchain, ← shape_eq_map_shapeOf hwf]
  rw [heq]
  exact build_ok hwf.1 hwf.2

/-- C10: `split(dim, names, sizes)` and `rename(dim, name)` on a `dim` that
is not in the schema do not raise `NameNotFoundError`: they silently return
an array with the same raw tensor (hence the same per-axis sizes) and the
same dim names, ignoring the requested new names. -/
theorem claim_C10 (t : NamedTensorBase) (dim : String) (names_ : List String)
    (size_dict : List (String × Nat)) (name : String) (hwf : Wf t)
    (h : dim ∉ t.names) :
    t.split dim names_ size_dict = .ok ⟨t.tensor, t.names, 0⟩ ∧
    t.rename dim name = .ok ⟨t.tensor, t.names, 0⟩ :=
  ⟨split_noop hwf h, split_noop hwf h⟩

/-- C10 witness: splitting/renaming the absent dim "q" of (x=2, y=3) is a
silent no-op on names, sizes and data. -/
theorem claim_C10_witness :
    exXY.split "q" ["a", "b"] [] = .ok ⟨exXY.tensor, exXY.names, 0⟩ ∧
    exXY.rename "q" "b" = .ok ⟨exXY.tensor, exXY.names, 0⟩ :=
  claim_C10 exXY "q" ["a", "b"] [] "b" (by decide) (by decide)


/-! ### Split: general characterisation with one inferred size -/

theorem flatMap_id_of_not_mem {dim : String} {names_ : List String}
    {l : List String} (h : dim ∉ l) :
    (l.flatMap fun d => if d = dim then names_ else [d]) = l := by
  induction l with
  | nil => rfl
  | cons a rest ih =>
    have ha : a ≠ dim := fun he => h (he ▸ List.mem_cons_self a rest)
    have hr : dim ∉ rest := fun hm => h (List.mem_cons_of_mem _ hm)
    rw [List.flatMap_cons, if_neg ha, ih hr]
    rfl

theorem flatMap_split_decomp {dim : String} {names_ : List String}
    {A B : List String} (hA : dim ∉ A) (hB : dim ∉ B) :
    ((A ++ dim :: B).flatMap fun d => if d = dim then names_ else [d]) =
      A ++ names_ ++ B := by
  rw [List.flatMap_append, List.flatMap_cons, if_pos rfl,
    flatMap_id_of_not_mem hA, flatMap_id_of_not_mem hB, List.append_assoc]

theorem split_infer {t : NamedTensorBase} {dim : String} {names_ : List String}
    {size_dict : List (String × Nat)} {u : String}
    (hwf : Wf t) (hdim : dim ∈ t.names) (hnd : names_.Nodup)
    (hfresh : ∀ n ∈ names_, n ∈ t.names → n = dim)
    (hu : u ∈ names_) (huns : dictGet size_dict u = none)
    (hspec : ∀ n ∈ names_, n ≠ u → ∃ v, dictGet size_dict n = some v ∧ 0 < v)
    (hpos : ∀ n ∈ t.names, n ≠ dim → 0 < t.shapeOf n) :
    (prod (names_.map fun n => if n = u then 1 else (dictGet size_dict n).getD 0) ∣
        t.shapeOf dim →
      ∃ r, t._split dim names_ size_dict = .ok r ∧
        r.names = t.names.flatMap (fun d => if d = dim then names_ else [d]) ∧
        r.tensor.data = t.tensor.data ∧
        r.tensor.shape = r.names.map (fun n =>
          if n ∈ names_ then
            (if n = u then
              t.shapeOf dim /
                prod (names_.map fun n' =>
                  if n' = u then 1 else (dictGet size_dict n').getD 0)
            else (dictGet size_dict n).getD 0)
          else t.shapeOf n) ∧
        Wf r ∧ r.masked = 0) ∧
    (¬ prod (names_.map fun n => if n = u then 1 else (dictGet size_dict n).getD 0) ∣
        t.shapeOf dim →
      t._split dim names_ size_dict = .error .shapeMismatch) := by
  obtain ⟨A, B, hAB⟩ := List.append_of_mem hdim
  have hndAB : (A ++ dim :: B).Nodup := hAB ▸ hwf.1
  have hmid := List.nodup_middle.mp hndAB
  have hdimA : dim ∉ A := fun h => (List.nodup_cons.mp hmid).1 (List.mem_append.mpr (Or.inl h))
  have hdimB : dim ∉ B := fun h => (List.nodup_cons.mp hmid).1 (List.mem_append.mpr (Or.inr h))
  have hndA : A.Nodup := ((List.nodup_append.mp (List.nodup_cons.mp hmid).2).1)
  have hndB : B.Nodup := ((List.nodup_append.mp (List.nodup_cons.mp hmid).2).2.1)
  have hdisjAB : ∀ n ∈ A, n ∉ B :=
    fun n hn => (List.nodup_append.mp (List.nodup_cons.mp hmid).2).2.2 hn
  obtain ⟨N1, N2, hN⟩ := List.append_of_mem hu
  have hndN : (N1 ++ u :: N2).Nodup := hN ▸ hnd
  have hmidN := List.nodup_middle.mp hndN
  have huN1 : u ∉ N1 := fun h => (List.nodup_cons.mp hmidN).1 (List.mem_append.mpr (Or.inl h))
  have huN2 : u ∉ N2 := fun h => (List.nodup_cons.mp hmidN).1 (List.mem_append.mpr (Or.inr h))
  have hmemN1 : ∀ n ∈ N1, n ∈ names_ := fun n hn => hN ▸ List.mem_append.mpr (Or.inl hn)
  have hmemN2 : ∀ n ∈ N2, n ∈ names_ :=
    fun n hn => hN ▸ List.mem_append.mpr (Or.inr (List.mem_cons_of_mem _ hn))
  have hneN1 : ∀ n ∈ N1, n ≠ u := fun n hn he => huN1 (he ▸ hn)
  have hneN2 : ∀ n ∈ N2, n ≠ u := fun n hn he => huN2 (he ▸ hn)
  have hmemA : ∀ n ∈ A, n ∈ t.names := fun n hn => hAB ▸ List.mem_append.mpr (Or.inl hn)
  have hmemB : ∀ n ∈ B, n ∈ t.names :=
    fun n hn => hAB ▸ List.mem_append.mpr (Or.inr (List.mem_cons_of_mem _ hn))
  have hneA : ∀ n ∈ A, n ≠ dim := fun n hn he => hdimA (he ▸ hn)
  have hneB : ∀ n ∈ B, n ≠ dim := fun n hn he => hdimB (he ▸ hn)
  -- the view size list produced by the loop
  have hsg : splitGo t.shapeOf dim names_ size_dict t.names =
      (A ++ names_ ++ B,
       A.map (fun d => ((t.shapeOf d : Nat) : Int)) ++
         (names_.map (fun d2 => match dictGet size_dict d2 with
           | some v => (v : Int)
           | none => -1) ++ B.map (fun d => ((t.shapeOf d : Nat) : Int)))) := by
    rw [hAB]
    exact splitGo_present hdimA hdimB
  -- middle map in terms of the specified sizes
  have hdvN1 : N1.map (fun d2 => match dictGet size_dict d2 with
      | some v => (v : Int) | none => -1)
      = N1.map (fun n => (((dictGet size_dict n).getD 0 : Nat) : Int)) := by
    apply List.map_congr_left
    intro n hn
    obtain ⟨v, hv, -⟩ := hspec n (hmemN1 n hn) (hneN1 n hn)
    rw [hv]
    simp
  have hdvN2 : N2.map (fun d2 => match dictGet size_dict d2 with
      | some v => (v : Int) | none => -1)
      = N2.map (fun n => (((dictGet size_dict n).getD 0 : Nat) : Int)) := by
    apply List.map_congr_left
    intro n hn
    obtain ⟨v, hv, -⟩ := hspec n (hmemN2 n hn) (hneN2 n hn)
    rw [hv]
    simp
  have hdvu : (match dictGet size_dict u with
      | some v => (v : Int) | none => -1) = (-1 : Int) := by rw [huns]
  have hview : (names_.map (fun d2 => match dictGet size_dict d2 with
        | some v => (v : Int) | none => -1)) =
      N1.map (fun n => (((dictGet size_dict n).getD 0 : Nat) : Int)) ++
        -1 :: N2.map (fun n => (((dictGet size_dict n).getD 0 : Nat) : Int)) := by
    rw [hN, List.map_append, List.map_cons, hdvN1, hdvN2, hdvu]
  -- positivity of the explicit entries
  have hposX : ∀ s ∈ A.map (fun d => ((t.shapeOf d : Nat) : Int)) ++
      N1.map (fun n => (((dictGet size_dict n).getD 0 : Nat) : Int)), 0 ≤ s := by
    intro s hs
    rcases List.mem_append.mp hs with h | h
    · obtain ⟨d, -, rfl⟩ := List.mem_map.mp h
      exact Int.ofNat_nonneg _
    · obtain ⟨d, -, rfl⟩ := List.mem_map.mp h
      exact Int.ofNat_nonneg _
  have hposY : ∀ s ∈ N2.map (fun n => (((dictGet size_dict n).getD 0 : Nat) : Int)) ++
      B.map (fun d => ((t.shapeOf d : Nat) : Int)), 0 ≤ s := by
    intro s hs
    rcases List.mem_append.mp hs with h | h
    · obtain ⟨d, -, rfl⟩ := List.mem_map.mp h
      exact Int.ofNat_nonneg _
    · obtain ⟨d, -, rfl⟩ := List.mem_map.mp h
      exact Int.ofNat_nonneg _
  -- toNat collapses the Int coercions
  have htn : ∀ (l : List String) (g : String → Nat),
      (l.map (fun n => ((g n : Nat) : Int))).map Int.toNat = l.map g := by
    intro l g
    rw [List.map_map]
    exact List.map_congr_left (fun n _ => by simp)
  have hXY : ((A.map (fun d => ((t.shapeOf d : Nat) : Int)) ++
      N1.map (fun n => (((dictGet size_dict n).getD 0 : Nat) : Int))) ++
      (N2.map (fun n => (((dictGet size_dict n).getD 0 : Nat) : Int)) ++
      B.map (fun d => ((t.shapeOf d : Nat) : Int)))).map Int.toNat =
      (A.map t.shapeOf ++ N1.map (fun n => (dictGet size_dict n).getD 0)) ++
      (N2.map (fun n => (dictGet size_dict n).getD 0) ++ B.map t.shapeOf) := by
    rw [List.map_append, List.map_append, List.map_append, htn, htn, htn, htn]
  -- abbreviations by fact
  have hprodXY : prod (((A.map (fun d => ((t.shapeOf d : Nat) : Int)) ++
      N1.map (fun n => (((dictGet size_dict n).getD 0 : Nat) : Int))) ++
      (N2.map (fun n => (((dictGet size_dict n).getD 0 : Nat) : Int)) ++
      B.map (fun d => ((t.shapeOf d : Nat) : Int)))).map Int.toNat) =
      (prod (A.map t.shapeOf) * prod (B.map t.shapeOf)) *
      (prod (N1.map fun n => (dictGet size_dict n).getD 0) *
       prod (N2.map fun n => (dictGet size_dict n).getD 0)) := by
    rw [hXY, prod_append, prod_append, prod_append]
    ring
  have hPS : prod (names_.map fun n =>
      if n = u then 1 else (dictGet size_dict n).getD 0) =
      prod (N1.map fun n => (dictGet size_dict n).getD 0) *
      prod (N2.map fun n => (dictGet size_dict n).getD 0) := by
    rw [hN, List.map_append, List.map_cons, if_pos rfl, prod_append, prod_cons]
    have e1 : (N1.map fun n => if n = u then 1 else (dictGet size_dict n).getD 0)
        = N1.map fun n => (dictGet size_dict n).getD 0 :=
      List.map_congr_left (fun n hn => by rw [if_neg (hneN1 n hn)])
    have e2 : (N2.map fun n => if n = u then 1 else (dictGet size_dict n).getD 0)
        = N2.map fun n => (dictGet size_dict n).getD 0 :=
      List.map_congr_left (fun n hn => by rw [if_neg (hneN2 n hn)])
    rw [e1, e2]
    ring
  have hnumel : t.tensor.numel =
      (prod (A.map t.shapeOf) * prod (B.map t.shapeOf)) * t.shapeOf dim := by
    unfold Tensor.numel
    rw [shape_eq_map_shapeOf hwf, hAB, List.map_append, List.map_cons,
      prod_append, prod_cons]
    ring
  have hsa : 0 < prod (A.map t.shapeOf) := by
    apply prod_pos
    intro x hx
    obtain ⟨n, hn, rfl⟩ := List.mem_map.mp hx
    exact hpos n (hmemA n hn) (hneA n hn)
  have hsb : 0 < prod (B.map t.shapeOf) := by
    apply prod_pos
    intro x hx
    obtain ⟨n, hn, rfl⟩ := List.mem_map.mp hx
    exact hpos n (hmemB n hn) (hneB n hn)
  have hs1 : 0 < prod (N1.map fun n => (dictGet size_dict n).getD 0) := by
    apply prod_pos
    intro x hx
    obtain ⟨n, hn, rfl⟩ := List.mem_map.mp hx
    obtain ⟨v, hv, hvp⟩ := hspec n (hmemN1 n hn) (hneN1 n hn)
    rw [hv]
    exact hvp
  have hs2 : 0 < prod (N2.map fun n => (dictGet size_dict n).getD 0) := by
    apply prod_pos
    intro x hx
    obtain ⟨n, hn, rfl⟩ := List.mem_map.mp hx
    obtain ⟨v, hv, hvp⟩ := hspec n (hmemN2 n hn) (hneN2 n hn)
    rw [hv]
    exact hvp
  have hR : 0 < prod (A.map t.shapeOf) * prod (B.map t.shapeOf) :=
    Nat.mul_pos hsa hsb
  have hS : 0 < prod (N1.map fun n => (dictGet size_dict n).getD 0) *
      prod (N2.map fun n => (dictGet size_dict n).getD 0) :=
    Nat.mul_pos hs1 hs2
  have hdvd_iff : t.tensor.numel %
      prod (((A.map (fun d => ((t.shapeOf d : Nat) : Int)) ++
        N1.map (fun n => (((dictGet size_dict n).getD 0 : Nat) : Int))) ++
        (N2.map (fun n => (((dictGet size_dict n).getD 0 : Nat) : Int)) ++
        B.map (fun d => ((t.shapeOf d : Nat) : Int)))).map Int.toNat) = 0 ↔
      prod (names_.map fun n =>
        if n = u then 1 else (dictGet size_dict n).getD 0) ∣ t.shapeOf dim := by
    rw [hprodXY, ← Nat.dvd_iff_mod_eq_zero, hnumel, ← hPS,
      Nat.mul_dvd_mul_iff_left hR]
  have hdiv_eq : t.tensor.numel /
      prod (((A.map (fun d => ((t.shapeOf d : Nat) : Int)) ++
        N1.map (fun n => (((dictGet size_dict n).getD 0 : Nat) : Int))) ++
        (N2.map (fun n => (((dictGet size_dict n).getD 0 : Nat) : Int)) ++
        B.map (fun d => ((t.shapeOf d : Nat) : Int)))).map Int.toNat) =
      t.shapeOf dim / prod (names_.map fun n =>
        if n = u then 1 else (dictGet size_dict n).getD 0) := by
    rw [hprodXY, hnumel, ← hPS, Nat.mul_div_mul_left _ _ hR]
  have hpne : prod (((A.map (fun d => ((t.shapeOf d : Nat) : Int)) ++
      N1.map (fun n => (((dictGet size_dict n).getD 0 : Nat) : Int))) ++
      (N2.map (fun n => (((dictGet size_dict n).getD 0 : Nat) : Int)) ++
      B.map (fun d => ((t.shapeOf d : Nat) : Int)))).map Int.toNat) ≠ 0 := by
    rw [hprodXY]
    have := Nat.mul_pos hR hS
    omega
  -- the full view argument in a ++ -1 :: b form
  have hlist : A.map (fun d => ((t.shapeOf d : Nat) : Int)) ++
      (names_.map (fun d2 => match dictGet size_dict d2 with
        | some v => (v : Int) | none => -1) ++
       B.map (fun d => ((t.shapeOf d : Nat) : Int))) =
      (A.map (fun d => ((t.shapeOf d : Nat) : Int)) ++
       N1.map (fun n => (((dictGet size_dict n).getD 0 : Nat) : Int))) ++
      -1 :: (N2.map (fun n => (((dictGet size_dict n).getD 0 : Nat) : Int)) ++
       B.map (fun d => ((t.shapeOf d : Nat) : Int))) := by
    rw [hview]
    simp [List.append_assoc]
  -- nodup and length of the result schema
  have hdisjAN : ∀ n ∈ A, n ∉ names_ := by
    intro n hn hns
    exact hneA n hn (hfresh n hns (hmemA n hn))
  have hdisjNB : ∀ n ∈ names_, n ∉ B := by
    intro n hns hnB
    exact hneB n hnB (hfresh n hns (hmemB n hnB))
  have hexnd : (A ++ names_ ++ B).Nodup := by
    rw [List.append_assoc]
    apply List.Nodup.append hndA
    · apply List.Nodup.append hnd hndB hdisjNB
    · intro n hnA hnR
      rcases List.mem_append.mp hnR with h | h
      · exact hdisjAN n hnA h
      · exact hdisjAB n hnA h
  constructor
  · intro hdvd
    have hok := (view_infer (t := t.tensor) hposX hposY).1 hpne (hdvd_iff.mpr hdvd)
    have hstep : t._split dim names_ size_dict = NamedTensorBase.build
        ⟨(A.map (fun d => ((t.shapeOf d : Nat) : Int)) ++
            N1.map (fun n => (((dictGet size_dict n).getD 0 : Nat) : Int))).map Int.toNat ++
          (t.tensor.numel / prod (((A.map (fun d => ((t.shapeOf d : Nat) : Int)) ++
            N1.map (fun n => (((dictGet size_dict n).getD 0 : Nat) : Int))) ++
            (N2.map (fun n => (((dictGet size_dict n).getD 0 : Nat) : Int)) ++
            B.map (fun d => ((t.shapeOf d : Nat) : Int)))).map Int.toNat)) ::
          (N2.map (fun n => (((dictGet size_dict n).getD 0 : Nat) : Int)) ++
            B.map (fun d => ((t.shapeOf d : Nat) : Int))).map Int.toNat,
         t.tensor.data⟩ (A ++ names_ ++ B) 0 := by
      unfold NamedTensorBase._split
      simp only []
      rw [hsg]
      simp only []
      rw [hlist, hok]
    have hexlen : ((A.map (fun d => ((t.shapeOf d : Nat) : Int)) ++
        N1.map (fun n => (((dictGet size_dict n).getD 0 : Nat) : Int))).map Int.toNat ++
        (t.tensor.numel / prod (((A.map (fun d => ((t.shapeOf d : Nat) : Int)) ++
          N1.map (fun n => (((dictGet size_dict n).getD 0 : Nat) : Int))) ++
          (N2.map (fun n => (((dictGet size_dict n).getD 0 : Nat) : Int)) ++
          B.map (fun d => ((t.shapeOf d : Nat) : Int)))).map Int.toNat)) ::
        (N2.map (fun n => (((dictGet size_dict n).getD 0 : Nat) : Int)) ++
          B.map (fun d => ((t.shapeOf d : Nat) : Int))).map Int.toNat).length =
        (A ++ names_ ++ B).length := by
      simp [hN]
    rw [build_ok hexnd hexlen] at hstep
    refine ⟨_, hstep, ?_, rfl, ?_, ⟨hexnd, hexlen⟩, rfl⟩
    · show A ++ names_ ++ B = _
      rw [hAB, flatMap_split_decomp hdimA hdimB]
    · show (A.map (fun d => ((t.shapeOf d : Nat) : Int)) ++
        N1.map (fun n => (((dictGet size_dict n).getD 0 : Nat) : Int))).map Int.toNat ++
        _ :: (N2.map (fun n => (((dictGet size_dict n).getD 0 : Nat) : Int)) ++
          B.map (fun d => ((t.shapeOf d : Nat) : Int))).map Int.toNat = _
      have hdisjBN : ∀ n ∈ B, n ∉ names_ := fun n hn hns => hdisjNB n hns hn
      have hgresA : (A.map fun n =>
          if n ∈ names_ then
            (if n = u then
              t.shapeOf dim / prod (names_.map fun n' =>
                if n' = u then 1 else (dictGet size_dict n').getD 0)
            else (dictGet size_dict n).getD 0)
          else t.shapeOf n) = A.map t.shapeOf :=
        List.map_congr_left (fun n hn => if_neg (hdisjAN n hn))
      have hgresB : (B.map fun n =>
          if n ∈ names_ then
            (if n = u then
              t.shapeOf dim / prod (names_.map fun n' =>
                if n' = u then 1 else (dictGet size_dict n').getD 0)
            else (dictGet size_dict n).getD 0)
          else t.shapeOf n) = B.map t.shapeOf :=
        List.map_congr_left (fun n hn => if_neg (hdisjBN n hn))
      have hmidmap : ∀ g : String → Nat,
          (∀ n ∈ N1, g n = (dictGet size_dict n).getD 0) →
          (∀ n ∈ N2, g n = (dictGet size_dict n).getD 0) →
          g u = t.shapeOf dim / prod (names_.map fun n' =>
              if n' = u then 1 else (dictGet size_dict n').getD 0) →
          names_.map g = N1.map (fun n => (dictGet size_dict n).getD 0) ++
            (t.shapeOf dim / prod (names_.map fun n' =>
              if n' = u then 1 else (dictGet size_dict n').getD 0)) ::
            N2.map (fun n => (dictGet size_dict n).getD 0) := by
        intro g h1 h2 h3
        conv_lhs => rw [hN]
        rw [List.map_append, List.map_cons, h3,
          List.map_congr_left h1, List.map_congr_left h2]
      have hLHS : (A.map (fun d => ((t.shapeOf d : Nat) : Int)) ++
          N1.map (fun n => (((dictGet size_dict n).getD 0 : Nat) : Int))).map Int.toNat ++
          (t.tensor.numel / prod (((A.map (fun d => ((t.shapeOf d : Nat) : Int)) ++
            N1.map (fun n => (((dictGet size_dict n).getD 0 : Nat) : Int))) ++
            (N2.map (fun n => (((dictGet size_dict n).getD 0 : Nat) : Int)) ++
            B.map (fun d => ((t.shapeOf d : Nat) : Int)))).map Int.toNat)) ::
          (N2.map (fun n => (((dictGet size_dict n).getD 0 : Nat) : Int)) ++
            B.map (fun d => ((t.shapeOf d : Nat) : Int))).map Int.toNat =
          A.map t.shapeOf ++ (N1.map (fun n => (dictGet size_dict n).getD 0) ++
            ((t.shapeOf dim / prod (names_.map fun n' =>
              if n' = u then 1 else (dictGet size_dict n').getD 0)) ::
            (N2.map (fun n => (dictGet size_dict n).getD 0) ++ B.map t.shapeOf))) := by
        rw [hdiv_eq, List.map_append, List.map_append, htn A t.shapeOf,
          htn N1 (fun n => (dictGet size_dict n).getD 0),
          htn N2 (fun n => (dictGet size_dict n).getD 0), htn B t.shapeOf]
        simp [List.append_assoc]
      have hRHS : ((A ++ names_ ++ B).map fun n =>
          if n ∈ names_ then
            (if n = u then
              t.shapeOf dim / prod (names_.map fun n' =>
                if n' = u then 1 else (dictGet size_dict n').getD 0)
            else (dictGet size_dict n).getD 0)
          else t.shapeOf n) =
          A.map t.shapeOf ++ (N1.map (fun n => (dictGet size_dict n).getD 0) ++
            ((t.shapeOf dim / prod (names_.map fun n' =>
              if n' = u then 1 else (dictGet size_dict n').getD 0)) ::
            (N2.map (fun n => (dictGet size_dict n).getD 0) ++ B.map t.shapeOf))) := by
        rw [List.map_append, List.map_append, hgresA, hgresB,
          hmidmap _ (fun n hn => by rw [if_pos (hmemN1 n hn), if_neg (hneN1 n hn)])
            (fun n hn => by rw [if_pos (hmemN2 n hn), if_neg (hneN2 n hn)])
            (by rw [if_pos hu, if_pos rfl])]
        simp [List.append_assoc]
      exact hLHS.trans hRHS.symm
  · intro hndvd
    have herr := (view_infer (t := t.tensor) hposX hposY).2
      (by
        rintro ⟨-, hmod⟩
        exact hndvd (hdvd_iff.mp hmod))
    unfold NamedTensorBase._split
    simp only []
    rw [hsg]
    simp only []
    rw [hlist, herr]


/-! ### Unsqueeze and rename as `_split` instances -/

theorem tensor_ext {s t : Tensor} (h1 : s.shape = t.shape)
    (h2 : s.data = t.data) : s = t := by
  cases s; cases t; simp_all

theorem flatMap_singleton_eq_map {dim x : String} {l : List String} :
    (l.flatMap fun d => if d = dim then [x] else [d]) =
      l.map (fun d => if d = dim then x else d) := by
  induction l with
  | nil => rfl
  | cons c rest ih =>
    rw [List.flatMap_cons, List.map_cons, ih]
    by_cases hc : c = dim
    · rw [if_pos hc, if_pos hc]
      rfl
    · rw [if_neg hc, if_neg hc]
      rfl

theorem unsqueeze_ok {t : NamedTensorBase} {w n0 : String} {rest : List String}
    (hwf : Wf t) (hnr : t.names = n0 :: rest) (hw : w ∉ t.names)
    (hpos : ∀ n ∈ t.names, n ≠ n0 → 0 < t.shapeOf n) :
    ∃ r, t.unsqueeze w = .ok r ∧ r.names = w :: t.names ∧
      r.tensor.shape = 1 :: t.tensor.shape ∧
      r.tensor.data = t.tensor.data ∧ Wf r ∧ r.masked = 0 := by
  have hwn0 : w ≠ n0 := fun he => hw (he ▸ hnr ▸ List.mem_cons_self n0 rest)
  have hn0rest : n0 ∉ rest := by
    have := hnr ▸ hwf.1
    exact (List.nodup_cons.mp this).1
  have hwrest : w ∉ rest := fun hm => hw (hnr ▸ List.mem_cons_of_mem _ hm)
  have hunsq : t.unsqueeze w = t._split n0 [w, n0] [(w, 1)] := by
    unfold NamedTensorBase.unsqueeze
    rw [hnr]
  have hdim : n0 ∈ t.names := hnr ▸ List.mem_cons_self n0 rest
  have hnd : ([w, n0]).Nodup := by
    simp [hwn0]
  have hfresh : ∀ n ∈ [w, n0], n ∈ t.names → n = n0 := by
    intro n hn hmem
    rcases List.mem_cons.mp hn with rfl | hn
    · exact absurd hmem hw
    · simpa using hn
  have hu : n0 ∈ [w, n0] := by simp
  have huns : dictGet [(w, 1)] n0 = none := by
    simp [dictGet, hwn0]
  have hspec : ∀ n ∈ [w, n0], n ≠ n0 → ∃ v, dictGet [(w, 1)] n = some v ∧ 0 < v := by
    intro n hn hne
    rcases List.mem_cons.mp hn with rfl | hn
    · exact ⟨1, by simp [dictGet], Nat.one_pos⟩
    · exact absurd (by simpa using hn) hne
  have hPS : prod (([w, n0]).map fun n =>
      if n = n0 then 1 else (dictGet [(w, 1)] n).getD 0) = 1 := by
    simp [prod, dictGet, hwn0]
  have hdvd : prod (([w, n0]).map fun n =>
      if n = n0 then 1 else (dictGet [(w, 1)] n).getD 0) ∣ t.shapeOf n0 := by
    rw [hPS]
    exact Nat.one_dvd _
  obtain ⟨r, hok, hnames, hdata, hshape, hwfr, hm⟩ :=
    (split_infer hwf hdim hnd hfresh hu huns hspec hpos).1 hdvd
  refine ⟨r, hunsq ▸ hok, ?_, ?_, hdata, hwfr, hm⟩
  · rw [hnames, hnr, List.flatMap_cons, if_pos rfl, flatMap_id_of_not_mem hn0rest]
    rfl
  · rw [hshape, hPS]
    simp only [Nat.div_one]
    have hrn : r.names = w :: n0 :: rest := by
      rw [hnames, hnr, List.flatMap_cons, if_pos rfl, flatMap_id_of_not_mem hn0rest]
      rfl
    rw [hrn, List.map_cons, List.map_cons]
    have e1 : (if w ∈ [w, n0] then
        (if w = n0 then t.shapeOf n0 else (dictGet [(w, 1)] w).getD 0)
        else t.shapeOf w) = 1 := by
      rw [if_pos (by simp), if_neg hwn0]
      simp [dictGet]
    have e2 : (if n0 ∈ [w, n0] then
        (if n0 = n0 then t.shapeOf n0 else (dictGet [(w, 1)] n0).getD 0)
        else t.shapeOf n0) = t.shapeOf n0 := by
      rw [if_pos (by simp), if_pos rfl]
    have e3 : (rest.map fun n =>
        if n ∈ [w, n0] then
          (if n = n0 then t.shapeOf n0 else (dictGet [(w, 1)] n).getD 0)
          else t.shapeOf n) = rest.map t.shapeOf := by
      apply List.map_congr_left
      intro n hn
      have h1 : n ≠ w := fun he => hwrest (he ▸ hn)
      have h2 : n ≠ n0 := fun he => hn0rest (he ▸ hn)
      rw [if_neg (by simp [h1, h2])]
    rw [e1, e2, e3]
    have : t.tensor.shape = t.shapeOf n0 :: rest.map t.shapeOf := by
      rw [shape_eq_map_shapeOf hwf, hnr, List.map_cons]
    rw [this]

/-- C6: `unsqueeze(name)` on an array with at least one axis inserts a new
size-1 axis named `name` before the first axis, preserving the first axis's
size (recovered through the engine's `-1` inference) and all other axes and
the data exactly. -/
theorem claim_C6 (t : NamedTensorBase) (w : String) (hwf : Wf t)
    (hne : t.names ≠ []) (hw : w ∉ t.names)
    (hpos : ∀ n ∈ t.names, n ≠ t.names.headD "" → 0 < t.shapeOf n) :
    ∃ r, t.unsqueeze w = .ok r ∧ r.names = w :: t.names ∧
      r.tensor.shape = 1 :: t.tensor.shape ∧
      r.tensor.data = t.tensor.data ∧ Wf r ∧ r.masked = 0 := by
  obtain ⟨n0, rest, hnr⟩ : ∃ a l, t.names = a :: l := by
    cases hc : t.names with
    | nil => exact absurd hc hne
    | cons a l => exact ⟨a, l, rfl⟩
  exact unsqueeze_ok hwf hnr hw (by rw [hnr] at hpos ⊢; simpa using hpos)

/-- C6 witness: the spec's concrete scenario — `unsqueeze("w")` on
(x=2, y=3) yields dims (w, x, y) with sizes (1, 2, 3). -/
theorem claim_C6_witness :
    ∃ r, exXY.unsqueeze "w" = .ok r ∧ r.names = "w" :: exXY.names ∧
      r.tensor.shape = 1 :: exXY.tensor.shape ∧
      r.tensor.data = exXY.tensor.data ∧ Wf r ∧ r.masked = 0 :=
  claim_C6 exXY "w" (by decide) (by decide) (by decide) (by decide)


theorem rename_ok {t : NamedTensorBase} {a b : String} (hwf : Wf t)
    (ha : a ∈ t.names) (hb : b ∉ t.names)
    (hpos : ∀ n ∈ t.names, n ≠ a → 0 < t.shapeOf n) :
    ∃ r, t.rename a b = .ok r ∧ r.tensor = t.tensor ∧
      r.names = t.names.map (fun d => if d = a then b else d) ∧
      Wf r ∧ r.masked = 0 := by
  have hab : b ≠ a := fun he => hb (he ▸ ha)
  have hnd : ([b] : List String).Nodup := by simp
  have hfresh : ∀ n ∈ [b], n ∈ t.names → n = a := by
    intro n hn hmem
    rw [List.mem_singleton] at hn
    exact absurd (hn ▸ hmem) hb
  have hu : b ∈ [b] := by simp
  have huns : dictGet [] b = none := rfl
  have hspec : ∀ n ∈ [b], n ≠ b → ∃ v, dictGet [] n = some v ∧ 0 < v := by
    intro n hn hne
    rw [List.mem_singleton] at hn
    exact absurd hn hne
  have hPS : prod (([b] : List String).map fun n =>
      if n = b then 1 else (dictGet [] n).getD 0) = 1 := by
    simp [prod]
  have hdvd : prod (([b] : List String).map fun n =>
      if n = b then 1 else (dictGet [] n).getD 0) ∣ t.shapeOf a := by
    rw [hPS]
    exact Nat.one_dvd _
  obtain ⟨r, hok, hnames, hdata, hshape, hwfr, hm⟩ :=
    (split_infer hwf ha hnd hfresh hu huns hspec hpos).1 hdvd
  have hnames' : r.names = t.names.map (fun d => if d = a then b else d) := by
    rw [hnames, flatMap_singleton_eq_map]
  have hshape' : r.tensor.shape = t.tensor.shape := by
    rw [hshape, hPS]
    simp only [Nat.div_one]
    rw [hnames, flatMap_singleton_eq_map, List.map_map]
    have : (t.names.map ((fun n =>
        if n ∈ [b] then
          (if n = b then t.shapeOf a else (dictGet [] n).getD 0)
        else t.shapeOf n) ∘ (fun d => if d = a then b else d))) =
        t.names.map t.shapeOf := by
      apply List.map_congr_left
      intro d hd
      by_cases hda : d = a
      · subst hda
        simp
      · have hdb : d ≠ b := fun he => hb (he ▸ hd)
        simp [hda, hdb]
    rw [this, ← shape_eq_map_shapeOf hwf]
  exact ⟨r, hok, tensor_ext hshape' hdata, hnames', hwfr, hm⟩

/-- C7: `rename(a, b)` followed by `rename(b, a)` restores the original raw
tensor and the original names; each rename relabels exactly one axis
(in place) without touching the raw tensor. -/
theorem claim_C7 (t : NamedTensorBase) (a b : String) (hwf : Wf t)
    (ha : a ∈ t.names) (hb : b ∉ t.names)
    (hpos : ∀ n ∈ t.names, n ≠ a → 0 < t.shapeOf n) :
    ∃ r1 r2, t.rename a b = .ok r1 ∧ r1.rename b a = .ok r2 ∧
      r1.tensor = t.tensor ∧
      r1.names = t.names.map (fun d => if d = a then b else d) ∧
      r2.tensor = t.tensor ∧ r2.names = t.names := by
  obtain ⟨r1, hok1, ht1, hn1, hwf1, -⟩ := rename_ok hwf ha hb hpos
  have hbmem : b ∈ r1.names := by
    rw [hn1]
    exact List.mem_map.mpr ⟨a, ha, by rw [if_pos rfl]⟩
  have hamem : a ∉ r1.names := by
    rw [hn1]
    intro hmem
    obtain ⟨d, hd, he⟩ := List.mem_map.mp hmem
    by_cases hda : d = a
    · rw [if_pos hda] at he
      exact hb (he ▸ ha)
    · rw [if_neg hda] at he
      exact hda he
  have hg : r1.tensor.shape = r1.names.map
      (fun n => if n = b then t.shapeOf a else t.shapeOf n) := by
    rw [ht1, hn1, List.map_map, shape_eq_map_shapeOf hwf]
    apply List.map_congr_left
    intro d hd
    by_cases hda : d = a
    · subst hda
      simp
    · have hdb : d ≠ b := fun he => hb (he ▸ hd)
      simp [hda, hdb]
  have hpos1 : ∀ n ∈ r1.names, n ≠ b → 0 < r1.shapeOf n := by
    intro n hn hnb
    rw [shapeOf_of_map hg hn, if_neg hnb]
    have hnt : n ∈ t.names := by
      rw [hn1] at hn
      obtain ⟨d, hd, he⟩ := List.mem_map.mp hn
      by_cases hda : d = a
      · rw [if_pos hda] at he
        exact absurd he.symm hnb
      · rw [if_neg hda] at he
        exact he ▸ hd
    have hna : n ≠ a := fun he => hamem (he ▸ hn)
    exact hpos n hnt hna
  obtain ⟨r2, hok2, ht2, hn2, -, -⟩ := rename_ok hwf1 hbmem hamem hpos1
  refine ⟨r1, r2, hok1, hok2, ht1, hn1, ht2.trans ht1, ?_⟩
  rw [hn2, hn1, List.map_map]
  have : (t.names.map ((fun d => if d = b then a else d) ∘
      (fun d => if d = a then b else d))) = t.names.map id := by
    apply List.map_congr_left
    intro d hd
    by_cases hda : d = a
    · subst hda
      simp
    · have hdb : d ≠ b := fun he => hb (he ▸ hd)
      simp [hda, hdb]
  rw [this, List.map_id]

/-- C7 witness: renaming "y" to "q" and back on (x=2, y=3, z=4) restores
the original array exactly. -/
theorem claim_C7_witness :
    ∃ r1 r2, exXYZ.rename "y" "q" = .ok r1 ∧ r1.rename "q" "y" = .ok r2 ∧
      r1.tensor = exXYZ.tensor ∧
      r1.names = exXYZ.names.map (fun d => if d = "y" then "q" else d) ∧
      r2.tensor = exXYZ.tensor ∧ r2.names = exXYZ.names :=
  claim_C7 exXYZ "y" "q" (by decide) (by decide) (by decide) (by decide)


/-! ### Split with every new size specified -/

theorem split_exact {t : NamedTensorBase} {dim : String} {names_ : List String}
    {size_dict : List (String × Nat)}
    (hwf : Wf t) (hdim : dim ∈ t.names) (hnd : names_.Nodup)
    (hfresh : ∀ n ∈ names_, n ∈ t.names → n = dim)
    (hall : ∀ n ∈ names_, ∃ v, dictGet size_dict n = some v)
    (hpos : ∀ n ∈ t.names, n ≠ dim → 0 < t.shapeOf n) :
    (prod (names_.map fun n => (dictGet size_dict n).getD 0) = t.shapeOf dim →
      ∃ r, t._split dim names_ size_dict = .ok r ∧
        r.names = t.names.flatMap (fun d => if d = dim then names_ else [d]) ∧
        r.tensor.data = t.tensor.data ∧
        r.tensor.shape = r.names.map (fun n =>
          if n ∈ names_ then (dictGet size_dict n).getD 0 else t.shapeOf n) ∧
        Wf r ∧ r.masked = 0) ∧
    (prod (names_.map fun n => (dictGet size_dict n).getD 0) ≠ t.shapeOf dim →
      t._split dim names_ size_dict = .error .shapeMismatch) := by
  obtain ⟨A, B, hAB⟩ := List.append_of_mem hdim
  have hndAB : (A ++ dim :: B).Nodup := hAB ▸ hwf.1
  have hmid := List.nodup_middle.mp hndAB
  have hdimA : dim ∉ A := fun h => (List.nodup_cons.mp hmid).1 (List.mem_append.mpr (Or.inl h))
  have hdimB : dim ∉ B := fun h => (List.nodup_cons.mp hmid).1 (List.mem_append.mpr (Or.inr h))
  have hndA : A.Nodup := ((List.nodup_append.mp (List.nodup_cons.mp hmid).2).1)
  have hndB : B.Nodup := ((List.nodup_append.mp (List.nodup_cons.mp hmid).2).2.1)
  have hdisjAB : ∀ n ∈ A, n ∉ B :=
    fun n hn => (List.nodup_append.mp (List.nodup_cons.mp hmid).2).2.2 hn
  have hmemA : ∀ n ∈ A, n ∈ t.names := fun n hn => hAB ▸ List.mem_append.mpr (Or.inl hn)
  have hmemB : ∀ n ∈ B, n ∈ t.names :=
    fun n hn => hAB ▸ List.mem_append.mpr (Or.inr (List.mem_cons_of_mem _ hn))
  have hneA : ∀ n ∈ A, n ≠ dim := fun n hn he => hdimA (he ▸ hn)
  have hneB : ∀ n ∈ B, n ≠ dim := fun n hn he => hdimB (he ▸ hn)
  have hsg : splitGo t.shapeOf dim names_ size_dict t.names =
      (A ++ names_ ++ B,
       A.map (fun d => ((t.shapeOf d : Nat) : Int)) ++
         (names_.map (fun d2 => match dictGet size_dict d2 with
           | some v => (v : Int)
           | none => -1) ++ B.map (fun d => ((t.shapeOf d : Nat) : Int)))) := by
    rw [hAB]
    exact splitGo_present hdimA hdimB
  have hdv : names_.map (fun d2 => match dictGet size_dict d2 with
      | some v => (v : Int) | none => -1)
      = names_.map (fun n => (((dictGet size_dict n).getD 0 : Nat) : Int)) := by
    apply List.map_congr_left
    intro n hn
    obtain ⟨v, hv⟩ := hall n hn
    rw [hv]
    simp
  have hposall : ∀ s ∈ A.map (fun d => ((t.shapeOf d : Nat) : Int)) ++
      (names_.map (fun n => (((dictGet size_dict n).getD 0 : Nat) : Int)) ++
       B.map (fun d => ((t.shapeOf d : Nat) : Int))), 0 ≤ s := by
    intro s hs
    rcases List.mem_append.mp hs with h | h
    · obtain ⟨d, -, rfl⟩ := List.mem_map.mp h
      exact Int.ofNat_nonneg _
    · rcases List.mem_append.mp h with h | h
      · obtain ⟨d, -, rfl⟩ := List.mem_map.mp h
        exact Int.ofNat_nonneg _
      · obtain ⟨d, -, rfl⟩ := List.mem_map.mp h
        exact Int.ofNat_nonneg _
  have htn : ∀ (l : List String) (g : String → Nat),
      (l.map (fun n => ((g n : Nat) : Int))).map Int.toNat = l.map g := by
    intro l g
    rw [List.map_map]
    exact List.map_congr_left (fun n _ => by simp)
  have hsa : 0 < prod (A.map t.shapeOf) := by
    apply prod_pos
    intro x hx
    obtain ⟨n, hn, rfl⟩ := List.mem_map.mp hx
    exact hpos n (hmemA n hn) (hneA n hn)
  have hsb : 0 < prod (B.map t.shapeOf) := by
    apply prod_pos
    intro x hx
    obtain ⟨n, hn, rfl⟩ := List.mem_map.mp hx
    exact hpos n (hmemB n hn) (hneB n hn)
  have hprodview : prod (((A.map (fun d => ((t.shapeOf d : Nat) : Int)) ++
      (names_.map (fun n => (((dictGet size_dict n).getD 0 : Nat) : Int)) ++
       B.map (fun d => ((t.shapeOf d : Nat) : Int)))).map Int.toNat)) =
      prod (A.map t.shapeOf) *
        (prod (names_.map fun n => (dictGet size_dict n).getD 0) *
         prod (B.map t.shapeOf)) := by
    rw [List.map_append, List.map_append, htn A t.shapeOf,
      htn names_ (fun n => (dictGet size_dict n).getD 0), htn B t.shapeOf,
      prod_append, prod_append]
  have hnumel : t.tensor.numel =
      prod (A.map t.shapeOf) * (t.shapeOf dim * prod (B.map t.shapeOf)) := by
    unfold Tensor.numel
    rw [shape_eq_map_shapeOf hwf, hAB, List.map_append, List.map_cons,
      prod_append, prod_cons]
  have hiff : prod (((A.map (fun d => ((t.shapeOf d : Nat) : Int)) ++
      (names_.map (fun n => (((dictGet size_dict n).getD 0 : Nat) : Int)) ++
       B.map (fun d => ((t.shapeOf d : Nat) : Int)))).map Int.toNat)) =
      t.tensor.numel ↔
      prod (names_.map fun n => (dictGet size_dict n).getD 0) = t.shapeOf dim := by
    rw [hprodview, hnumel]
    constructor
    · intro h
      have h1 := Nat.eq_of_mul_eq_mul_left hsa h
      have h2 : prod (names_.map fun n => (dictGet size_dict n).getD 0) *
          prod (B.map t.shapeOf) = t.shapeOf dim * prod (B.map t.shapeOf) := h1
      exact Nat.eq_of_mul_eq_mul_right hsb h2
    · intro h
      rw [h]
  have hdisjAN : ∀ n ∈ A, n ∉ names_ := by
    intro n hn hns
    exact hneA n hn (hfresh n hns (hmemA n hn))
  have hdisjNB : ∀ n ∈ names_, n ∉ B := by
    intro n hns hnB
    exact hneB n hnB (hfresh n hns (hmemB n hnB))
  have hexnd : (A ++ names_ ++ B).Nodup := by
    rw [List.append_assoc]
    apply List.Nodup.append hndA
    · exact List.Nodup.append hnd hndB hdisjNB
    · intro n hnA hnR
      rcases List.mem_append.mp hnR with h | h
      · exact hdisjAN n hnA h
      · exact hdisjAB n hnA h
  constructor
  · intro heq
    have hok := (view_exact (t := t.tensor) hposall).1 (hiff.mpr heq)
    have hstep : t._split dim names_ size_dict = NamedTensorBase.build
        ⟨(A.map (fun d => ((t.shapeOf d : Nat) : Int)) ++
          (names_.map (fun n => (((dictGet size_dict n).getD 0 : Nat) : Int)) ++
           B.map (fun d => ((t.shapeOf d : Nat) : Int)))).map Int.toNat,
         t.tensor.data⟩ (A ++ names_ ++ B) 0 := by
      unfold NamedTensorBase._split
      simp only []
      rw [hsg]
      simp only []
      rw [hdv, hok]
    have hexlen : ((A.map (fun d => ((t.shapeOf d : Nat) : Int)) ++
        (names_.map (fun n => (((dictGet size_dict n).getD 0 : Nat) : Int)) ++
         B.map (fun d => ((t.shapeOf d : Nat) : Int)))).map Int.toNat).length =
        (A ++ names_ ++ B).length := by
      simp
    rw [build_ok hexnd hexlen] at hstep
    refine ⟨_, hstep, ?_, rfl, ?_, ⟨hexnd, hexlen⟩, rfl⟩
    · show A ++ names_ ++ B = _
      rw [hAB, flatMap_split_decomp hdimA hdimB]
    · show (A.map (fun d => ((t.shapeOf d : Nat) : Int)) ++
        (names_.map (fun n => (((dictGet size_dict n).getD 0 : Nat) : Int)) ++
         B.map (fun d => ((t.shapeOf d : Nat) : Int)))).map Int.toNat = _
      have hdisjBN : ∀ n ∈ B, n ∉ names_ := fun n hn hns => hdisjNB n hns hn
      have hgresA : (A.map fun n =>
          if n ∈ names_ then (dictGet size_dict n).getD 0 else t.shapeOf n)
          = A.map t.shapeOf :=
        List.map_congr_left (fun n hn => if_neg (hdisjAN n hn))
      have hgresB : (B.map fun n =>
          if n ∈ names_ then (dictGet size_dict n).getD 0 else t.shapeOf n)
          = B.map t.shapeOf :=
        List.map_congr_left (fun n hn => if_neg (hdisjBN n hn))
      have hgresM : (names_.map fun n =>
          if n ∈ names_ then (dictGet size_dict n).getD 0 else t.shapeOf n)
          = names_.map (fun n => (dictGet size_dict n).getD 0) :=
        List.map_congr_left (fun n hn => if_pos hn)
      rw [List.map_append, List.map_append, htn A t.shapeOf,
        htn names_ (fun n => (dictGet size_dict n).getD 0), htn B t.shapeOf]
      rw [List.map_append, List.map_append, hgresA, hgresB, hgresM,
        List.append_assoc]
  · intro hneq
    have herr := (view_exact (t := t.tensor) hposall).2 (fun h => hneq (hiff.mp h))
    unfold NamedTensorBase._split
    simp only []
    rw [hsg]
    simp only []
    rw [hdv, herr]


/-- C5: `split(dim, names, sizes)` with at most one name unspecified
replaces the axis `dim` in place by the new axes. With exactly one
unspecified name `u`, the new axes carry their declared sizes and `u`
receives the inferred size `size(dim) / product(specified)`; if the
specified sizes do not divide `size(dim)` evenly, the engine reshape fails
(`ShapeMismatchError`). With every name specified, the operation succeeds
exactly when the declared sizes multiply to `size(dim)`, and fails with the
same error otherwise. -/
theorem claim_C5 (t : NamedTensorBase) (dim : String) (names_ : List String)
    (size_dict : List (String × Nat)) (u : String) (hwf : Wf t)
    (hdim : dim ∈ t.names) (hnd : names_.Nodup)
    (hfresh : ∀ n ∈ names_, n ∈ t.names → n = dim)
    (hpos : ∀ n ∈ t.names, n ≠ dim → 0 < t.shapeOf n) :
    (u ∈ names_ → dictGet size_dict u = none →
      (∀ n ∈ names_, n ≠ u → ∃ v, dictGet size_dict n = some v ∧ 0 < v) →
      (prod (names_.map fun n =>
          if n = u then 1 else (dictGet size_dict n).getD 0) ∣ t.shapeOf dim →
        ∃ r, t.split dim names_ size_dict = .ok r ∧
          r.names = t.names.flatMap (fun d => if d = dim then names_ else [d]) ∧
          r.tensor.data = t.tensor.data ∧
          r.tensor.shape = r.names.map (fun n =>
            if n ∈ names_ then
              (if n = u then
                t.shapeOf dim / prod (names_.map fun n' =>
                  if n' = u then 1 else (dictGet size_dict n').getD 0)
              else (dictGet size_dict n).getD 0)
            else t.shapeOf n) ∧
          Wf r ∧ r.masked = 0) ∧
      (¬ prod (names_.map fun n =>
          if n = u then 1 else (dictGet size_dict n).getD 0) ∣ t.shapeOf dim →
        t.split dim names_ size_dict = .error .shapeMismatch)) ∧
    ((∀ n ∈ names_, ∃ v, dictGet size_dict n = some v) →
      (prod (names_.map fun n => (dictGet size_dict n).getD 0) = t.shapeOf dim →
        ∃ r, t.split dim names_ size_dict = .ok r ∧
          r.names = t.names.flatMap (fun d => if d = dim then names_ else [d]) ∧
          r.tensor.data = t.tensor.data ∧
          r.tensor.shape = r.names.map (fun n =>
            if n ∈ names_ then (dictGet size_dict n).getD 0 else t.shapeOf n) ∧
          Wf r ∧ r.masked = 0) ∧
      (prod (names_.map fun n => (dictGet size_dict n).getD 0) ≠ t.shapeOf dim →
        t.split dim names_ size_dict = .error .shapeMismatch)) := by
  constructor
  · intro hu huns hspec
    exact (split_infer hwf hdim hnd hfresh hu huns hspec hpos)
  · intro hall
    exact (split_exact hwf hdim hnd hfresh hall hpos)

/-- C5 witness: splitting z=4 of (x=2, y=3, z=4) into (a=2, b inferred)
gives dims (x, y, a, b) with b = 2; splitting y=3 the same way fails with
the reshape error (2 does not divide 3). -/
theorem claim_C5_witness :
    (∃ r, exXYZ.split "z" ["a", "b"] [("a", 2)] = .ok r ∧
      r.names = exXYZ.names.flatMap (fun d => if d = "z" then ["a", "b"] else [d]) ∧
      r.tensor.data = exXYZ.tensor.data ∧
      r.tensor.shape = r.names.map (fun n =>
        if n ∈ ["a", "b"] then
          (if n = "b" then
            exXYZ.shapeOf "z" / prod ((["a", "b"]).map fun n' =>
              if n' = "b" then 1 else (dictGet [("a", 2)] n').getD 0)
          else (dictGet [("a", 2)] n).getD 0)
        else exXYZ.shapeOf n) ∧
      Wf r ∧ r.masked = 0) ∧
    exXYZ.split "y" ["a", "b"] [("a", 2)] = .error .shapeMismatch :=
  ⟨((claim_C5 exXYZ "z" ["a", "b"] [("a", 2)] "b" (by decide) (by decide)
      (by decide) (by decide) (by decide)).1 (by decide) (by decide)
      (by decide)).1 (by decide),
   ((claim_C5 exXYZ "y" ["a", "b"] [("a", 2)] "b" (by decide) (by decide)
      (by decide) (by decide) (by decide)).1 (by decide) (by decide)
      (by decide)).2 (by decide)⟩


/-! ### Merge/stack: loop closed forms and full characterisation -/

theorem dropWhile_head_false {α : Type} {p : α → Bool} {l : List α} {d : α}
    {tl : List α} (h : l.dropWhile p = d :: tl) : p d = false := by
  induction l with
  | nil => simp at h
  | cons a rest ih =>
    rw [List.dropWhile_cons] at h
    by_cases ha : p a
    · rw [if_pos ha] at h
      exact ih h
    · rw [if_neg ha] at h
      cases h
      exact Bool.of_not_eq_true ha

theorem mergeGo_false (sizes : String → Nat) (names_ : List String)
    (dim : String) (pn : Nat) (l : List String) :
    mergeGo sizes names_ dim pn l false =
      (l.filter (fun d => decide (d ∉ names_)),
       l.filter (fun d => decide (d ∉ names_)),
       (l.filter (fun d => decide (d ∉ names_))).map sizes) := by
  induction l with
  | nil => rfl
  | cons d rest ih =>
    by_cases hd : d ∈ names_
    · simp [mergeGo, hd, ih, List.filter_cons]
    · simp [mergeGo, hd, ih, List.filter_cons]

theorem mergeGo_true (sizes : String → Nat) (names_ : List String)
    (dim : String) (pn : Nat) {pre : List String} {d0 : String}
    {tl : List String} (hpre : ∀ d ∈ pre, d ∉ names_) (hd0 : d0 ∈ names_) :
    mergeGo sizes names_ dim pn (pre ++ d0 :: tl) true =
      (pre ++ (names_ ++ tl.filter (fun d => decide (d ∉ names_))),
       pre ++ dim :: tl.filter (fun d => decide (d ∉ names_)),
       pre.map sizes ++ pn :: (tl.filter (fun d => decide (d ∉ names_))).map sizes) := by
  induction pre with
  | nil =>
    simp only [List.nil_append]
    simp [mergeGo, hd0, mergeGo_false]
  | cons p pre' ih =>
    have hp : p ∉ names_ := hpre p (List.mem_cons_self _ _)
    have hpre' : ∀ d ∈ pre', d ∉ names_ := fun d hd => hpre d (List.mem_cons_of_mem _ hd)
    simp [mergeGo, hp, ih hpre']

theorem merge_ok {t : NamedTensorBase} {names_ : List String} {dim : String}
    (hwf : Wf t) (hsub : ∀ d ∈ names_, d ∈ t.names) (hnd : names_.Nodup)
    (hne : names_ ≠ [])
    (hfresh : ∀ n ∈ t.names, n ∉ names_ → n ≠ dim) :
    ∃ r pre d0 tl, t.stack names_ dim = .ok r ∧
      t.names = pre ++ d0 :: tl ∧ (∀ d ∈ pre, d ∉ names_) ∧ d0 ∈ names_ ∧
      r.names = pre ++ dim :: tl.filter (fun d => decide (d ∉ names_)) ∧
      pre ++ tl.filter (fun d => decide (d ∉ names_)) =
        t.names.filter (fun d => decide (d ∉ names_)) ∧
      r.tensor.shape = r.names.map (fun d =>
        if d = dim then prod (names_.map t.shapeOf) else t.shapeOf d) ∧
      Wf r ∧ r.masked = 0 := by
  -- decompose t.names at the first participating axis
  obtain ⟨pre, d0, tl, hdec, hpre, hd0⟩ : ∃ pre d0 tl,
      t.names = pre ++ d0 :: tl ∧ (∀ d ∈ pre, d ∉ names_) ∧ d0 ∈ names_ := by
    cases hdw : t.names.dropWhile (fun d => decide (d ∉ names_)) with
    | nil =>
      exfalso
      obtain ⟨n0, hn0⟩ : ∃ n0, n0 ∈ names_ := by
        cases hc : names_ with
        | nil => exact absurd hc hne
        | cons a l => exact ⟨a, hc ▸ List.mem_cons_self a l⟩
      have := (List.dropWhile_eq_nil_iff.mp hdw) n0 (hsub n0 hn0)
      simp at this
      exact this hn0
    | cons d0 tl =>
      refine ⟨t.names.takeWhile (fun d => decide (d ∉ names_)), d0, tl, ?_, ?_, ?_⟩
      · rw [← hdw, List.takeWhile_append_dropWhile]
      · intro d hd
        have := List.mem_takeWhile_imp hd
        simpa using this
      · have := dropWhile_head_false hdw
        simpa using this
  have hd0ne : ∀ d ∈ pre, d ≠ d0 := by
    intro d hd he
    exact hpre d hd (he ▸ hd0)
  -- nodup pieces
  have hpre_sub : List.Sublist pre t.names := by
    rw [hdec]
    exact (List.sublist_append_left pre (d0 :: tl))
  have htl_sub : List.Sublist tl t.names := by
    rw [hdec]
    exact List.Sublist.trans (List.sublist_cons_self d0 tl)
      (List.sublist_append_right pre (d0 :: tl))
  have hFtl_sub : List.Sublist (tl.filter (fun d => decide (d ∉ names_))) t.names :=
    List.Sublist.trans (List.filter_sublist tl) htl_sub
  have hmemPre : ∀ d ∈ pre, d ∈ t.names := fun d hd => hpre_sub.subset hd
  have hmemFtl : ∀ d ∈ tl.filter (fun d => decide (d ∉ names_)), d ∈ t.names :=
    fun d hd => hFtl_sub.subset hd
  have hndmid := List.nodup_middle.mp (hdec ▸ hwf.1)
  have hd0tl : d0 ∉ tl := fun h =>
    (List.nodup_cons.mp hndmid).1 (List.mem_append.mpr (Or.inr h))
  have hndpretl : (pre ++ tl).Nodup := (List.nodup_cons.mp hndmid).2
  have hdisjPreTl : ∀ d ∈ pre, d ∉ tl :=
    fun d hd => (List.nodup_append.mp hndpretl).2.2 hd
  have hndpre : pre.Nodup := (List.nodup_append.mp hndpretl).1
  have hndtl : tl.Nodup := (List.nodup_append.mp hndpretl).2.1
  have hFtl_not : ∀ d ∈ tl.filter (fun d => decide (d ∉ names_)), d ∉ names_ := by
    intro d hd
    have := (List.mem_filter.mp hd).2
    simpa using this
  have hFtl_tl : ∀ d ∈ tl.filter (fun d => decide (d ∉ names_)), d ∈ tl :=
    fun d hd => (List.mem_filter.mp hd).1
  -- the transpose target s
  have hs_nd : (pre ++ (names_ ++ tl.filter (fun d => decide (d ∉ names_)))).Nodup := by
    apply List.Nodup.append hndpre
    · apply List.Nodup.append hnd (List.Sublist.nodup (List.filter_sublist tl) hndtl)
      intro a ha hb
      exact hFtl_not a hb ha
    · intro a ha hb
      rcases List.mem_append.mp hb with h | h
      · exact hpre a ha h
      · exact hdisjPreTl a ha (hFtl_tl a h)
  have hs_sub : ∀ d ∈ pre ++ (names_ ++ tl.filter (fun d => decide (d ∉ names_))),
      d ∈ t.names := by
    intro d hd
    rcases List.mem_append.mp hd with h | h
    · exact hmemPre d h
    · rcases List.mem_append.mp h with h | h
      · exact hsub d h
      · exact hmemFtl d h
  have hs_all : ∀ n ∈ t.names,
      n ∈ pre ++ (names_ ++ tl.filter (fun d => decide (d ∉ names_))) := by
    intro n hn
    rw [hdec] at hn
    rcases List.mem_append.mp hn with h | h
    · exact List.mem_append.mpr (Or.inl h)
    · rcases List.mem_cons.mp h with rfl | h
      · exact List.mem_append.mpr (Or.inr (List.mem_append.mpr (Or.inl hd0)))
      · by_cases hnn : n ∈ names_
        · exact List.mem_append.mpr (Or.inr (List.mem_append.mpr (Or.inl hnn)))
        · refine List.mem_append.mpr (Or.inr (List.mem_append.mpr (Or.inr ?_)))
          exact List.mem_filter.mpr ⟨h, by simpa using hnn⟩
  obtain ⟨tr, htrok, htrnames, htrshape, -, htrwf, -, -⟩ :=
    transpose_full hwf hs_nd hs_sub
  have hfiltnil : t.names.filter (fun d =>
      decide (d ∉ pre ++ (names_ ++ tl.filter (fun d => decide (d ∉ names_))))) = [] := by
    rw [List.filter_eq_nil_iff]
    intro n hn
    simp only [decide_eq_true_eq]
    exact not_not_intro (hs_all n hn)
  have htrnames' : tr.names = pre ++ (names_ ++ tl.filter (fun d => decide (d ∉ names_))) := by
    rw [htrnames, hfiltnil]
    rfl
  have htn2 : ∀ l : List Nat, (l.map Int.ofNat).map Int.toNat = l := by
    intro l
    rw [List.map_map]
    have : (Int.toNat ∘ Int.ofNat) = id := by
      funext n
      simp
    rw [this, List.map_id]
  have htrshape' : tr.tensor.shape =
      pre.map t.shapeOf ++ (names_.map t.shapeOf ++
        (tl.filter (fun d => decide (d ∉ names_))).map t.shapeOf) := by
    rw [htrshape, htrnames', List.map_append, List.map_append]
  have hposview : ∀ s ∈ (pre.map t.shapeOf ++ prod (names_.map t.shapeOf) ::
      (tl.filter (fun d => decide (d ∉ names_))).map t.shapeOf).map Int.ofNat,
      0 ≤ s := by
    intro s hs
    obtain ⟨v, -, rfl⟩ := List.mem_map.mp hs
    exact Int.ofNat_nonneg _
  have hprodview : prod (((pre.map t.shapeOf ++ prod (names_.map t.shapeOf) ::
      (tl.filter (fun d => decide (d ∉ names_))).map t.shapeOf).map Int.ofNat).map
        Int.toNat) = tr.tensor.numel := by
    rw [htn2]
    unfold Tensor.numel
    rw [htrshape', prod_append, prod_append, prod_cons, prod_append]
  have hviewok := (view_exact (t := tr.tensor) hposview).1 hprodview
  rw [htn2] at hviewok
  have hdimpre : dim ∉ pre := by
    intro h
    exact hfresh dim (hmemPre dim h) (hpre dim h) rfl
  have hdimFtl : dim ∉ tl.filter (fun d => decide (d ∉ names_)) := by
    intro h
    exact hfresh dim (hmemFtl dim h) (hFtl_not dim h) rfl
  have hexnd : (pre ++ dim :: tl.filter (fun d => decide (d ∉ names_))).Nodup := by
    rw [List.nodup_middle]
    rw [List.nodup_cons]
    constructor
    · intro h
      rcases List.mem_append.mp h with h | h
      · exact hdimpre h
      · exact hdimFtl h
    · apply List.Nodup.append hndpre
        (List.Sublist.nodup (List.filter_sublist tl) hndtl)
      intro a ha hb
      exact hdisjPreTl a ha (hFtl_tl a hb)
  have hexlen : (pre.map t.shapeOf ++ prod (names_.map t.shapeOf) ::
      (tl.filter (fun d => decide (d ∉ names_))).map t.shapeOf).length =
      (pre ++ dim :: tl.filter (fun d => decide (d ∉ names_))).length := by
    simp
  have hall : names_.all (fun d => (schemaGet t.names d).isSome) = true := by
    rw [List.all_eq_true]
    intro d hd
    exact (schemaGet_isSome_iff t.names d).mpr (hsub d hd)
  have hstep : t.stack names_ dim = NamedTensorBase.build
      ⟨pre.map t.shapeOf ++ prod (names_.map t.shapeOf) ::
        (tl.filter (fun d => decide (d ∉ names_))).map t.shapeOf,
       tr.tensor.data⟩
      (pre ++ dim :: tl.filter (fun d => decide (d ∉ names_))) 0 := by
    unfold NamedTensorBase.stack NamedTensorBase._merge
    rw [if_pos hall]
    simp only []
    rw [show t.names = pre ++ d0 :: tl from hdec,
      mergeGo_true t.shapeOf names_ dim (prod (names_.map t.shapeOf)) hpre hd0]
    simp only []
    rw [htrok]
    show (match (tr.tensor.contiguous).view ((pre.map t.shapeOf ++
        prod (names_.map t.shapeOf) ::
        (tl.filter (fun d => decide (d ∉ names_))).map t.shapeOf).map Int.ofNat) with
      | .ok tensor => NamedTensorBase.build tensor
          (pre ++ dim :: tl.filter (fun d => decide (d ∉ names_))) 0
      | .error e => .error e) = _
    rw [show tr.tensor.contiguous = tr.tensor from rfl, hviewok]
  rw [build_ok hexnd hexlen] at hstep
  refine ⟨_, pre, d0, tl, hstep, hdec, hpre, hd0, rfl, ?_, ?_, ⟨hexnd, hexlen⟩, rfl⟩
  · rw [hdec, List.filter_append, List.filter_cons]
    have h1 : pre.filter (fun d => decide (d ∉ names_)) = pre := by
      rw [List.filter_eq_self]
      intro a ha
      simpa using hpre a ha
    have h2 : (decide (d0 ∉ names_)) = false := by
      simpa using hd0
    rw [h1]
    simp [h2]
  · show pre.map t.shapeOf ++ prod (names_.map t.shapeOf) ::
        (tl.filter (fun d => decide (d ∉ names_))).map t.shapeOf = _
    rw [List.map_append, List.map_cons]
    have e1 : (pre.map fun d => if d = dim then prod (names_.map t.shapeOf)
        else t.shapeOf d) = pre.map t.shapeOf :=
      List.map_congr_left (fun d hd =>
        if_neg (hfresh d (hmemPre d hd) (hpre d hd)))
    have e2 : ((tl.filter (fun d => decide (d ∉ names_))).map fun d =>
        if d = dim then prod (names_.map t.shapeOf) else t.shapeOf d) =
        (tl.filter (fun d => decide (d ∉ names_))).map t.shapeOf :=
      List.map_congr_left (fun d hd =>
        if_neg (hfresh d (hmemFtl d hd) (hFtl_not d hd)))
    rw [e1, e2, if_pos rfl]


theorem stack_absent {t : NamedTensorBase} {names_ : List String} {dim : String}
    (h : ∃ d ∈ names_, d ∉ t.names) : t.stack names_ dim = .error .nameNotFound := by
  obtain ⟨d, hd, hdn⟩ := h
  unfold NamedTensorBase.stack
  rw [if_neg]
  intro hall
  rw [List.all_eq_true] at hall
  have := hall d hd
  rw [schemaGet_isSome_iff] at this
  exact hdn this

/-- C4: `stack(names, new_name)` on a set of existing names collapses the
participating axes into one new axis of the product size, placed at the
position of the first participating axis in original order, all other axes
keeping their relative order and sizes; a missing name fails with
`NameNotFoundError`. -/
theorem claim_C4 (t : NamedTensorBase) (names_ : List String) (dim : String)
    (hwf : Wf t) :
    ((∀ d ∈ names_, d ∈ t.names) → names_.Nodup → names_ ≠ [] →
      (∀ n ∈ t.names, n ∉ names_ → n ≠ dim) →
      ∃ r pre d0 tl, t.stack names_ dim = .ok r ∧
        t.names = pre ++ d0 :: tl ∧ (∀ d ∈ pre, d ∉ names_) ∧ d0 ∈ names_ ∧
        r.names = pre ++ dim :: tl.filter (fun d => decide (d ∉ names_)) ∧
        r.shapeOf dim = prod (names_.map t.shapeOf) ∧
        (∀ n ∈ t.names, n ∉ names_ → r.shapeOf n = t.shapeOf n)) ∧
    ((∃ d ∈ names_, d ∉ t.names) → t.stack names_ dim = .error .nameNotFound) := by
  constructor
  · intro hsub hnd hne hfresh
    obtain ⟨r, pre, d0, tl, hok, hdec, hpre, hd0, hnames, hfilt, hshape, hwfr, -⟩ :=
      merge_ok hwf hsub hnd hne hfresh
    have hmdim : dim ∈ r.names := by
      rw [hnames]
      exact List.mem_append.mpr (Or.inr (List.mem_cons_self _ _))
    refine ⟨r, pre, d0, tl, hok, hdec, hpre, hd0, hnames, ?_, ?_⟩
    · rw [shapeOf_of_map hshape hmdim, if_pos rfl]
    · intro n hn hnn
      have hnr : n ∈ r.names := by
        rw [hnames]
        rw [hdec] at hn
        rcases List.mem_append.mp hn with h | h
        · exact List.mem_append.mpr (Or.inl h)
        · rcases List.mem_cons.mp h with rfl | h
          · exact absurd hd0 hnn
          · refine List.mem_append.mpr (Or.inr (List.mem_cons_of_mem _ ?_))
            exact List.mem_filter.mpr ⟨h, by simpa using hnn⟩
      rw [shapeOf_of_map hshape hnr, if_neg (hfresh n hn hnn)]
  · exact stack_absent

/-- C4 witness: stacking ("x","z") of (x=2, y=3, z=4) into "m" yields dims
(m, y) with m of size 8 at the position x held; a missing name errors. -/
theorem claim_C4_witness :
    (∃ r pre d0 tl, exXYZ.stack ["x", "z"] "m" = .ok r ∧
      exXYZ.names = pre ++ d0 :: tl ∧ (∀ d ∈ pre, d ∉ ["x", "z"]) ∧
      d0 ∈ ["x", "z"] ∧
      r.names = pre ++ "m" :: tl.filter (fun d => decide (d ∉ ["x", "z"])) ∧
      r.shapeOf "m" = prod  ((["x", "z"]).map exXYZ.shapeOf) ∧
      (∀ n ∈ exXYZ.names, n ∉ ["x", "z"] → r.shapeOf n = exXYZ.shapeOf n)) ∧
    exXYZ.stack ["q"] "m" = .error .nameNotFound :=
  ⟨(claim_C4 exXYZ ["x", "z"] "m" (by decide)).1 (by decide) (by decide)
    (by decide) (by decide),
   (claim_C4 exXYZ ["q"] "m" (by decide)).2 ⟨"q", by decide, by decide⟩⟩


/-- C2: for two distinct dims d1, d2 and a fresh name m,
`stack((d1,d2), m)` followed by `split(m, (d1,d2), {d1: size(d1)})` restores
the original name set (up to axis position) and every per-name size; the
intermediate array carries the merged axis of size `size(d1)*size(d2)`. -/
theorem claim_C2 (t : NamedTensorBase) (d1 d2 m : String) (hwf : Wf t)
    (h1 : d1 ∈ t.names) (h2 : d2 ∈ t.names) (h12 : d1 ≠ d2) (hm : m ∉ t.names)
    (hpos : ∀ n ∈ t.names, 0 < t.shapeOf n) :
    ∃ r1 r2, t.stack [d1, d2] m = .ok r1 ∧
      r1.split m [d1, d2] [(d1, t.shapeOf d1)] = .ok r2 ∧
      r1.shapeOf m = t.shapeOf d1 * t.shapeOf d2 ∧
      (∀ n, n ∈ r2.names ↔ n ∈ t.names) ∧ r2.names.Nodup ∧
      (∀ n ∈ t.names, r2.shapeOf n = t.shapeOf n) := by
  have hsub : ∀ d ∈ [d1, d2], d ∈ t.names := by
    intro d hd
    rcases List.mem_cons.mp hd with rfl | hd
    · exact h1
    · rw [List.mem_singleton] at hd
      exact hd ▸ h2
  have hnd12 : ([d1, d2]).Nodup := by simp [h12]
  have hne : ([d1, d2] : List String) ≠ [] := by simp
  have hfresh : ∀ n ∈ t.names, n ∉ [d1, d2] → n ≠ m := fun n hn _ he => hm (he ▸ hn)
  obtain ⟨r1, pre, d0, tl, hok1, hdec, hpre, hd0, hn1, hfilt, hsh1, hwf1, -⟩ :=
    merge_ok hwf hsub hnd12 hne hfresh
  have hpn : prod (([d1, d2]).map t.shapeOf) = t.shapeOf d1 * t.shapeOf d2 := by
    simp [prod]
  have hmemPre : ∀ d ∈ pre, d ∈ t.names := by
    intro d hd
    rw [hdec]
    exact List.mem_append.mpr (Or.inl hd)
  have hmemTl : ∀ d ∈ tl, d ∈ t.names := by
    intro d hd
    rw [hdec]
    exact List.mem_append.mpr (Or.inr (List.mem_cons_of_mem _ hd))
  have hmr1 : m ∈ r1.names := by
    rw [hn1]
    exact List.mem_append.mpr (Or.inr (List.mem_cons_self _ _))
  have hshm : r1.shapeOf m = t.shapeOf d1 * t.shapeOf d2 := by
    rw [shapeOf_of_map hsh1 hmr1, if_pos rfl, hpn]
  have hr1mem : ∀ n ∈ r1.names, n = m ∨ (n ∈ t.names ∧ n ∉ [d1, d2]) := by
    intro n hn
    rw [hn1] at hn
    rcases List.mem_append.mp hn with h | h
    · exact Or.inr ⟨hmemPre n h, hpre n h⟩
    · rcases List.mem_cons.mp h with rfl | h
      · exact Or.inl rfl
      · have h3 := List.mem_filter.mp h
        exact Or.inr ⟨hmemTl n h3.1, by simpa using h3.2⟩
  have hfresh2 : ∀ n ∈ [d1, d2], n ∈ r1.names → n = m := by
    intro n hn hmem
    rcases hr1mem n hmem with rfl | ⟨-, hnot⟩
    · rfl
    · exact absurd hn hnot
  have hu : d2 ∈ [d1, d2] := by simp
  have huns : dictGet [(d1, t.shapeOf d1)] d2 = none := by
    simp [dictGet, h12]
  have hspec : ∀ n ∈ [d1, d2], n ≠ d2 →
      ∃ v, dictGet [(d1, t.shapeOf d1)] n = some v ∧ 0 < v := by
    intro n hn hne'
    rcases List.mem_cons.mp hn with rfl | hn
    · exact ⟨t.shapeOf n, by simp [dictGet], hpos n h1⟩
    · rw [List.mem_singleton] at hn
      exact absurd hn hne'
  have hpos1 : ∀ n ∈ r1.names, n ≠ m → 0 < r1.shapeOf n := by
    intro n hn hne'
    rw [shapeOf_of_map hsh1 hn, if_neg hne']
    rcases hr1mem n hn with rfl | ⟨hnt, -⟩
    · exact absurd rfl hne'
    · exact hpos n hnt
  have hPS : prod (([d1, d2]).map fun n =>
      if n = d2 then 1 else (dictGet [(d1, t.shapeOf d1)] n).getD 0) =
      t.shapeOf d1 := by
    simp [prod, dictGet, h12]
  have hdvd : prod (([d1, d2]).map fun n =>
      if n = d2 then 1 else (dictGet [(d1, t.shapeOf d1)] n).getD 0) ∣
      r1.shapeOf m := by
    rw [hPS, hshm]
    exact Dvd.intro _ rfl
  obtain ⟨r2, hok2, hn2, -, hsh2, hwf2, -⟩ :=
    (split_infer hwf1 hmr1 hnd12 hfresh2 hu huns hspec hpos1).1 hdvd
  have hmpre : m ∉ pre := fun h => hm (hmemPre m h)
  have hmFtl : m ∉ tl.filter (fun d => decide (d ∉ [d1, d2])) :=
    fun h => hm (hmemTl m (List.mem_filter.mp h).1)
  have hn2' : r2.names = pre ++ [d1, d2] ++
      tl.filter (fun d => decide (d ∉ [d1, d2])) := by
    rw [hn2, hn1, flatMap_split_decomp hmpre hmFtl]
  have hmemiff : ∀ n, n ∈ r2.names ↔ n ∈ t.names := by
    intro n
    rw [hn2']
    constructor
    · intro hn
      rcases List.mem_append.mp hn with h | h
      · rcases List.mem_append.mp h with h | h
        · exact hmemPre n h
        · exact hsub n h
      · exact hmemTl n (List.mem_filter.mp h).1
    · intro hn
      by_cases hnn : n ∈ [d1, d2]
      · exact List.mem_append.mpr (Or.inl (List.mem_append.mpr (Or.inr hnn)))
      · rw [hdec] at hn
        rcases List.mem_append.mp hn with h | h
        · exact List.mem_append.mpr (Or.inl (List.mem_append.mpr (Or.inl h)))
        · rcases List.mem_cons.mp h with rfl | h
          · exact absurd hd0 hnn
          · refine List.mem_append.mpr (Or.inr ?_)
            exact List.mem_filter.mpr ⟨h, by simpa using hnn⟩
  refine ⟨r1, r2, hok1, hok2, hshm, hmemiff, hwf2.1, ?_⟩
  intro n hn
  have hnr2 : n ∈ r2.names := (hmemiff n).mpr hn
  rw [shapeOf_of_map hsh2 hnr2]
  by_cases hnn : n ∈ [d1, d2]
  · rw [if_pos hnn]
    by_cases hnd2 : n = d2
    · subst hnd2
      rw [if_pos rfl, hPS, hshm, Nat.mul_div_cancel_left _ (hpos d1 h1)]
    · rw [if_neg hnd2]
      rcases List.mem_cons.mp hnn with rfl | hnn'
      · simp [dictGet]
      · rw [List.mem_singleton] at hnn'
        exact absurd hnn' hnd2
  · rw [if_neg hnn]
    have hnr1 : n ∈ r1.names := by
      rw [hn1]
      rw [hdec] at hn
      rcases List.mem_append.mp hn with h | h
      · exact List.mem_append.mpr (Or.inl h)
      · rcases List.mem_cons.mp h with rfl | h
        · exact absurd hd0 hnn
        · refine List.mem_append.mpr (Or.inr (List.mem_cons_of_mem _ ?_))
          exact List.mem_filter.mpr ⟨h, by simpa using hnn⟩
    have hnm : n ≠ m := fun he => hm (he ▸ hn)
    rw [shapeOf_of_map hsh1 hnr1, if_neg hnm]

/-- C2 witness: the spec's concrete scenario — (x=2, y=3, z=4),
stack(("y","z"), "yz") gives dims (x, yz) with sizes (2, 12), and
split("yz", ("y","z"), {"y": 3}) restores every size; the intermediate
dims/sizes are checked explicitly. -/
theorem claim_C2_witness :
    (∃ r1 r2, exXYZ.stack ["y", "z"] "yz" = .ok r1 ∧
      r1.split "yz" ["y", "z"] [("y", exXYZ.shapeOf "y")] = .ok r2 ∧
      r1.shapeOf "yz" = exXYZ.shapeOf "y" * exXYZ.shapeOf "z" ∧
      (∀ n, n ∈ r2.names ↔ n ∈ exXYZ.names) ∧ r2.names.Nodup ∧
      (∀ n ∈ exXYZ.names, r2.shapeOf n = exXYZ.shapeOf n)) ∧
    (exXYZ.stack ["y", "z"] "yz").map (fun r => (r.names, r.tensor.shape)) =
      .ok (["x", "yz"], [2, 12]) ∧
    ((exXYZ.stack ["y", "z"] "yz").bind
      (fun r => r.split "yz" ["y", "z"] [("y", 3)])).map
        (fun r => (r.names, r.tensor.shape)) = .ok (["x", "y", "z"], [2, 3, 4]) :=
  ⟨claim_C2 exXYZ "y" "z" "yz" (by decide) (by decide) (by decide) (by decide)
    (by decide) (by decide), by decide, by decide⟩


/-! ### `_promote`: the first token of the dims string is dropped -/

/-- C8 counterexample: on dims (a=2, b=3, c=4), `_promote "b c"` yields axis
order (b, a, c) — the first listed dim "b" comes first, not last — refuting
"the listed dims come last, all other axes first in original order". -/
theorem claim_C8_counterexample :
    (exABC._promote "b c").map NamedTensorBase.names = .ok ["b", "a", "c"] ∧
    ¬ ((exABC._promote "b c").map NamedTensorBase.names =
      .ok (exABC.names.filter (fun d => decide (d ∉ pySplit "b c")) ++
        pySplit "b c")) :=
  ⟨by decide, by decide⟩

/-- C8 (amended): `_promote(dims)` transposes so that the tokens of the
`dims` string after the first come last, in token order; axes whose names
are not substrings of `dims` come right before them, in original relative
order; axes whose names are substrings of `dims` without being among those
tail tokens (in particular a first-token dim) come first. No axis is added
or removed and every per-name size is preserved. -/
theorem claim_C8 (t : NamedTensorBase) (dims : String) (hwf : Wf t)
    (hsub : ∀ x ∈ (pySplit dims).drop 1, x ∈ t.names)
    (hnd : ((pySplit dims).drop 1).Nodup)
    (hinf : ∀ x ∈ (pySplit dims).drop 1, strIn x dims = true) :
    ∃ r, t._promote dims = .ok r ∧
      r.names = t.names.filter
          (fun d => strIn d dims && decide (d ∉ (pySplit dims).drop 1)) ++
        (t.names.filter (fun d => !(strIn d dims)) ++ (pySplit dims).drop 1) ∧
      (∀ n, n ∈ r.names ↔ n ∈ t.names) ∧
      (∀ n ∈ t.names, r.shapeOf n = t.shapeOf n) := by
  have htermsub : ∀ d ∈ t.names.filter (fun d => !(strIn d dims)) ++
      (pySplit dims).drop 1, d ∈ t.names := by
    intro d hd
    rcases List.mem_append.mp hd with h | h
    · exact List.mem_of_mem_filter h
    · exact hsub d h
  have htermnd : (t.names.filter (fun d => !(strIn d dims)) ++
      (pySplit dims).drop 1).Nodup := by
    apply List.Nodup.append (hwf.1.filter _) hnd
    intro a ha hb
    have h1 := (List.mem_filter.mp ha).2
    rw [hinf a hb] at h1
    exact Bool.noConfusion h1
  obtain ⟨r, hok, hnames, hshape, -, -, hperm, -⟩ :=
    transpose_full hwf htermnd htermsub
  have hfcongr : t.names.filter (fun d =>
      decide (d ∉ t.names.filter (fun d => !(strIn d dims)) ++
        (pySplit dims).drop 1)) =
      t.names.filter (fun d => strIn d dims && decide (d ∉ (pySplit dims).drop 1)) := by
    apply List.filter_congr
    intro d hd
    by_cases h1 : strIn d dims
    · by_cases h2 : d ∈ (pySplit dims).drop 1
      · have hmem : d ∈ t.names.filter (fun d => !(strIn d dims)) ++
            (pySplit dims).drop 1 := List.mem_append.mpr (Or.inr h2)
        rw [h1, Bool.true_and, decide_eq_false (not_not_intro hmem),
          decide_eq_false (not_not_intro h2)]
      · have hmem : d ∉ t.names.filter (fun d => !(strIn d dims)) ++
            (pySplit dims).drop 1 := by
          intro hmem
          rcases List.mem_append.mp hmem with h | h
          · have hh := (List.mem_filter.mp h).2
            rw [h1] at hh
            exact Bool.noConfusion hh
          · exact h2 h
        rw [h1, Bool.true_and, decide_eq_true hmem, decide_eq_true h2]
    · have hb : strIn d dims = false := Bool.of_not_eq_true h1
      have hmem : d ∈ t.names.filter (fun d => !(strIn d dims)) ++
          (pySplit dims).drop 1 :=
        List.mem_append.mpr (Or.inl (List.mem_filter.mpr ⟨hd, by rw [hb]; rfl⟩))
      rw [hb, Bool.false_and, decide_eq_false (not_not_intro hmem)]
  refine ⟨r, hok, ?_, fun n => hperm.mem_iff, ?_⟩
  · show r.names = _
    rw [hnames, hfcongr]
  · intro n hn
    exact shapeOf_of_map (hnames ▸ hshape) ((hperm.mem_iff).mpr hn)

/-- C8 amended-claim witness: on (a=2, b=3, c=4) the groups are (b) then
(a) then (c), both for the space-separated dims string "b c" and for the
tab-separated "b\tc", whose token list is ["b", "c"] since `str.split()`
splits on tabs too. -/
theorem claim_C8_witness :
    (∃ r, exABC._promote "b c" = .ok r ∧
      r.names = exABC.names.filter
          (fun d => strIn d "b c" && decide (d ∉ (pySplit "b c").drop 1)) ++
        (exABC.names.filter (fun d => !(strIn d "b c")) ++ (pySplit "b c").drop 1) ∧
      (∀ n, n ∈ r.names ↔ n ∈ exABC.names) ∧
      (∀ n ∈ exABC.names, r.shapeOf n = exABC.shapeOf n)) ∧
    (∃ r, exABC._promote "b\tc" = .ok r ∧
      r.names = exABC.names.filter
          (fun d => strIn d "b\tc" && decide (d ∉ (pySplit "b\tc").drop 1)) ++
        (exABC.names.filter (fun d => !(strIn d "b\tc")) ++
          (pySplit "b\tc").drop 1) ∧
      (∀ n, n ∈ r.names ↔ n ∈ exABC.names) ∧
      (∀ n ∈ exABC.names, r.shapeOf n = exABC.shapeOf n)) ∧
    pySplit "b\tc" = ["b", "c"] ∧
    (exABC._promote "b\tc").map NamedTensorBase.names = .ok ["b", "a", "c"] :=
  ⟨claim_C8 exABC "b c" (by decide) (by decide) (by decide) (by decide),
   claim_C8 exABC "b\tc" (by decide) (by decide) (by decide) (by decide),
   by decide, by decide⟩

end NamedTensor
